import Mathlib

/-!
Verification of the geometric/text core of the `azzas-hangtags` repository.

The development shallowly embeds the pure logic of `src/app.py`
(`compute_first_label_clip`, `extract_sku`, `find_barcode_word_bbox`,
`process_pdf_bytes` and the batch loop) and of `src/crop_carton_app.py`
(`extract_reference`, `extract_groups`, `detect_crop_rect`,
`build_group_pdfs`).  Page geometry is modelled over `ℚ`; the external
document-access layer (PyMuPDF) is modelled by data carried in a `Page`
record (text blocks, text inside a clip, words inside a clip, page size).
Python code that can raise (the float division `width / height` in
`detect_crop_rect`) is embedded with `Except`.
-/

/-- An axis-aligned rectangle, `fitz.Rect` style: `(x0, y0, x1, y1)`. -/
structure Rect where
  x0 : ℚ
  y0 : ℚ
  x1 : ℚ
  y1 : ℚ
deriving DecidableEq, Repr

/-- A text block as returned by `page.get_text("blocks")`: bbox plus text. -/
structure Block where
  x0 : ℚ
  y0 : ℚ
  x1 : ℚ
  y1 : ℚ
  text : String
deriving DecidableEq, Repr

/-- A word token as returned by `page.get_text("words", clip=...)`. -/
structure Word where
  x0 : ℚ
  y0 : ℚ
  x1 : ℚ
  y1 : ℚ
  text : String
deriving DecidableEq, Repr

/-- `r` lies within `[0, w] × [0, h]` (all four coordinates in range,
corners ordered). -/
def Rect.InBounds (r : Rect) (w h : ℚ) : Prop :=
  0 ≤ r.x0 ∧ r.x0 ≤ r.x1 ∧ r.x1 ≤ w ∧ 0 ≤ r.y0 ∧ r.y0 ≤ r.y1 ∧ r.y1 ≤ h

instance (r : Rect) (w h : ℚ) : Decidable (r.InBounds w h) := by
  unfold Rect.InBounds; infer_instance

/-- Minimum of a list (Python `min(xs)` over a nonempty list); the default
`d` is only used for `[]`. -/
def listMinD {α : Type} [LinearOrder α] (l : List α) (d : α) : α :=
  l.foldl min (l.headD d)

/-- Maximum of a list (Python `max(xs)` over a nonempty list). -/
def listMaxD {α : Type} [LinearOrder α] (l : List α) (d : α) : α :=
  l.foldl max (l.headD d)

/-- Python whitespace characters (`str.split()` / regex `\s`, ASCII range). -/
def isPySpace (c : Char) : Bool :=
  c == ' ' || c == '\t' || c == '\n' || c == '\r' ||
    c == Char.ofNat 11 || c == Char.ofNat 12

/-- Python `str.strip()` on a character list. -/
def pyStrip (l : List Char) : List Char :=
  ((l.dropWhile isPySpace).reverse.dropWhile isPySpace).reverse

/-- Helper for `pySplit`: accumulates the current word (reversed). -/
def pySplitAux : List Char → List Char → List (List Char)
  | [], acc => if acc.isEmpty then [] else [acc.reverse]
  | c :: rest, acc =>
    if isPySpace c then
      if acc.isEmpty then pySplitAux rest [] else acc.reverse :: pySplitAux rest []
    else pySplitAux rest (c :: acc)

/-- Python `str.split()` with no argument: split on whitespace runs,
dropping empty pieces. -/
def pySplit (l : List Char) : List (List Char) :=
  pySplitAux l []

/-- Python `" ".join(words)` on character lists. -/
def joinWords : List (List Char) → List Char
  | [] => []
  | [w] => w
  | w :: ws => w ++ ' ' :: joinWords ws

/-- `" ".join(text.split())`: collapse every whitespace run to one space. -/
def normalizeWs (l : List Char) : List Char :=
  joinWords (pySplit l)

def isUpperA (c : Char) : Bool := 'A' ≤ c && c ≤ 'Z'

def isDigitC (c : Char) : Bool := '0' ≤ c && c ≤ '9'

/-- Match exactly `n` characters satisfying `p` (regex `p{n}`), returning
them together with the rest of the input. -/
def takeCount (p : Char → Bool) : ℕ → List Char → Option (List Char × List Char)
  | 0, rest => some ([], rest)
  | _ + 1, [] => none
  | n + 1, c :: rest =>
    if p c then (takeCount p n rest).map (fun t => (c :: t.1, t.2)) else none

/-- Regex `\s+` (greedy): at least one whitespace character, consuming the
whole run.  Greedy consumption is equivalent to backtracking search here
because `\s` and `\d` (which always follows `\s+` in the SKU pattern) are
disjoint character classes. -/
def skipSpaces1 : List Char → Option (List Char)
  | [] => none
  | c :: rest => if isPySpace c then some (rest.dropWhile isPySpace) else none

/-- Regex `\s?` (greedy): consume one whitespace character when present
(equivalent to backtracking since `\d` must follow and is disjoint). -/
def skipOptSpace : List Char → List Char
  | [] => []
  | sp :: r2 => if isPySpace sp then r2 else sp :: r2

/-- Try the pattern `([A-Z])\s?(\d{5})\s+(\d{4})\s+(\d{4})` anchored at the
head of the input. -/
def matchSkuAt : List Char → Option (Char × List Char × List Char × List Char)
  | [] => none
  | c :: rest =>
    if isUpperA c then
      (takeCount isDigitC 5 (skipOptSpace rest)).bind (fun p5 =>
        (skipSpaces1 p5.2).bind (fun r3 =>
          (takeCount isDigitC 4 r3).bind (fun p1 =>
            (skipSpaces1 p1.2).bind (fun r5 =>
              (takeCount isDigitC 4 r5).map (fun p2 => (c, p5.1, p1.1, p2.1))))))
    else none

/-- `re.search` for the SKU pattern: leftmost starting position wins. -/
def searchSku : List Char → Option (Char × List Char × List Char × List Char)
  | [] => none
  | c :: rest =>
    match matchSkuAt (c :: rest) with
    | some m => some m
    | none => searchSku rest

/-- `extract_sku` from `src/app.py`: normalize whitespace, search for
`([A-Z])\s?(\d{5})\s+(\d{4})\s+(\d{4})`, and re-join the groups as
`"<letter><5digits> <4digits> <4digits>"`. -/
def extract_sku (s : String) : Option String :=
  let normalized := normalizeWs s.data
  match searchSku normalized with
  | none => none
  | some (c, d5, g1, g2) =>
    some (String.mk (c :: (d5 ++ ' ' :: (g1 ++ ' ' :: g2))))

/-- Characters allowed in a REFERENCIA token: regex class `[A-Z0-9]`. -/
def isRefTokenChar (c : Char) : Bool :=
  ('A' ≤ c && c ≤ 'Z') || ('0' ≤ c && c ≤ '9')

/-- Try the pattern `REFERENCIA:\s*([A-Z0-9]+)` anchored at the head of the
input (greedy `\s*` then a maximal nonempty `[A-Z0-9]` run; greediness is
equivalent to backtracking since the classes are disjoint). -/
def matchRefAt (l : List Char) : Option (List Char) :=
  if "REFERENCIA:".data.isPrefixOf l then
    let rest := (l.drop 11).dropWhile isPySpace
    let tok := rest.takeWhile isRefTokenChar
    if tok.isEmpty then none else some tok
  else none

/-- `re.search` for the REFERENCIA pattern: leftmost starting position. -/
def searchRef : List Char → Option (List Char)
  | [] => none
  | c :: rest =>
    match matchRefAt (c :: rest) with
    | some m => some m
    | none => searchRef rest

/-- `extract_reference` from `src/crop_carton_app.py`: the REFERENCIA token
when the pattern matches, otherwise the sentinel string `"UNKNOWN"`. -/
def extract_reference (text : String) : String :=
  match searchRef text.data with
  | some tok => String.mk tok
  | none => "UNKNOWN"

/-- Python `min(range(k), key=f)`: the first index in `0..k-1` with the
strictly smallest key (later indices replace the best only on strict `<`).
For `k = 0` (where Python would raise) we return `0`; no caller reaches
that case under the theorems' hypotheses. -/
def pyMinRange (k : ℕ) (f : ℕ → ℚ) : ℕ :=
  (List.range k).foldl (fun best j => if f j < f best then j else best) 0

/-- Assignment step of the 1-D k-means in `compute_first_label_clip`:
`min(range(k), key=lambda j: abs(x - centers[j]))`. -/
def nearestCenter (x : ℚ) (centers : List ℚ) : ℕ :=
  pyMinRange centers.length (fun j => |x - centers.getD j 0|)

/-- Update step of the k-means loop: each center becomes the mean of its
members; a center with no members is left unchanged. -/
def updateCenters (xs : List ℚ) (a : List ℕ) (centers : List ℚ) : List ℚ :=
  (List.range centers.length).map (fun j =>
    let members := (xs.zip a).filterMap (fun p => if p.2 = j then some p.1 else none)
    if members.isEmpty then centers.getD j 0 else members.sum / members.length)

/-- One round of the loop body in `compute_first_label_clip`: assign every
point to its nearest center, then recompute the centers.  The state carries
`(centers, assignments)`; the assignments in the state are the ones
computed against the centers at the start of the round, exactly as the
Python loop leaves them. -/
def kmeansStep (xs : List ℚ) (s : List ℚ × List ℕ) : List ℚ × List ℕ :=
  let a := xs.map (fun x => nearestCenter x s.1)
  (updateCenters xs a s.1, a)

/-- `for _ in range(n)` around `kmeansStep`. -/
def kmeansLoop (xs : List ℚ) : ℕ → List ℚ × List ℕ → List ℚ × List ℕ
  | 0, s => s
  | n + 1, s => kmeansLoop xs n (kmeansStep xs s)

/-- Initial centers, evenly spaced over the observed data range:
`centers = [minx + i * spacing for i in range(k)]`. -/
def initCenters (minx maxx : ℚ) (k : ℕ) : List ℚ :=
  (List.range k).map (fun i : ℕ => minx + (i : ℚ) * ((maxx - minx) / ((k : ℚ) - 1)))

/-- Center x of a block: `(x0 + x1) / 2`. -/
def blockCx (b : Block) : ℚ := (b.x0 + b.x1) / 2

/-- The fallback rectangle of `compute_first_label_clip`: the naive
equal-width first column `(0, 0, pageW / cols, pageH)`. -/
def naiveFirstColumn (pageW pageH : ℚ) (cols : ℕ) : Rect :=
  ⟨0, 0, pageW / cols, pageH⟩

/-- The clustering state `(centers, assignments)` computed by
`compute_first_label_clip` for the x-centers `xs`: a single midpoint
center for one column or zero variance, otherwise 10 k-means rounds from
the evenly spaced initialization. -/
def clusterState (xs : List ℚ) (cols : ℕ) : List ℚ × List ℕ :=
  if cols = 1 ∨ listMaxD xs 0 = listMinD xs 0 then
    ([(listMinD xs 0 + listMaxD xs 0) / 2], List.replicate xs.length 0)
  else
    kmeansLoop xs 10
      (initCenters (listMinD xs 0) (listMaxD xs 0) cols, List.replicate xs.length 0)

/-- The blocks assigned to the column with the smallest final center
(`sorted_indices[0]` of the Python code). -/
def firstColumnBlocks (bd : List Block) (s : List ℚ × List ℕ) : List Block :=
  (bd.zip s.2).filterMap
    (fun p => if p.2 = pyMinRange s.1.length (fun j => s.1.getD j 0) then some p.1
      else none)

/-- The padded tight bounding box of the first column's blocks, each side
clamped into the page independently. -/
def tightRect (fbs : List Block) (pageW pageH padX padY : ℚ) : Rect :=
  ⟨max 0 (listMinD (fbs.map Block.x0) 0 - padX),
   max 0 (listMinD (fbs.map Block.y0) 0 - padY),
   min pageW (listMaxD (fbs.map Block.x1) 0 + padX),
   min pageH (listMaxD (fbs.map Block.y1) 0 + padY)⟩

/-- `compute_first_label_clip` from `src/app.py`: cluster the x-centers of
non-blank text blocks into `cols` columns with 10 rounds of 1-D k-means,
take the column with the smallest final center, and return its padded
tight bounding box clamped to the page; fall back to the naive
equal-width first column when there is no text or the leftmost column is
empty. -/
def compute_first_label_clip (blocks : List Block) (pageW pageH : ℚ)
    (cols : ℕ) (padX padY : ℚ) : Rect :=
  let bd := blocks.filter (fun b => !(pyStrip b.text.data).isEmpty)
  let xs := bd.map blockCx
  if xs.isEmpty then naiveFirstColumn pageW pageH cols
  else
    let fbs := firstColumnBlocks bd (clusterState xs cols)
    if fbs.isEmpty then naiveFirstColumn pageW pageH cols
    else tightRect fbs pageW pageH padX padY

/-- `re.sub(r"\D", "", text)`: the digit characters of a word. -/
def digitsOf (s : String) : List Char := s.data.filter isDigitC

/-- Digit count of a word (`len(re.sub(r"\D", "", text))`). -/
def wordDC (w : Word) : ℕ := (digitsOf w.text).length

/-- The scanning loop of `find_barcode_word_bbox`: keep the first word
whose digit count strictly exceeds the best so far. -/
def findBestWord : List Word → Option Word → ℕ → Option Word × ℕ
  | [], best, bestLen => (best, bestLen)
  | w :: ws, best, bestLen =>
    if bestLen < wordDC w then findBestWord ws (some w) (wordDC w)
    else findBestWord ws best bestLen

/-- `find_barcode_word_bbox` from `src/app.py` (on the word list the
document layer returns for the clip): the word with the most digits, or
`none` when no word reaches 8 digits. -/
def find_barcode_word_bbox (words : List Word) : Option Word :=
  let r := findBestWord words none 0
  match r.1 with
  | none => none
  | some b => if r.2 < 8 then none else some b

/-- Fixed reference label size from `src/app.py` (`REF_LABEL_WIDTH`). -/
def REF_LABEL_WIDTH : ℚ := 82.68998718261719

/-- Fixed reference label size from `src/app.py` (`REF_LABEL_HEIGHT`). -/
def REF_LABEL_HEIGHT : ℚ := 78.56026458740234

/-- The barcode-centered crop-window computation in `process_pdf_bytes`
(step 3, `barcode_info is not None` branch): a window of the fixed
reference width centered on `center_x`, shifted rigidly into `[0, pageW]`,
vertically anchored at the label top with the fixed reference height and
shifted up when it passes the page bottom. -/
def barcode_centered_clip (labelRect : Rect) (center_x pageW pageH : ℚ) : Rect :=
  let target_w := REF_LABEL_WIDTH
  let min_x := center_x - target_w / 2
  let max_x := center_x + target_w / 2
  let p1 := if min_x < 0 then (0, max_x + (0 - min_x)) else (min_x, max_x)
  let p2 := if p1.2 > pageW then (p1.1 - (p1.2 - pageW), pageW) else p1
  let target_h := REF_LABEL_HEIGHT
  let min_y := labelRect.y0
  let max_y := min_y + target_h
  let q := if max_y > pageH then (pageH - target_h, pageH) else (min_y, max_y)
  ⟨p2.1, q.1, p2.2, q.2⟩

/-- A page as seen by the core logic: the data the document layer
(PyMuPDF) supplies.  `textIn` and `wordsIn` model `page.get_text` with a
clip argument. -/
structure Page where
  blocks : List Block
  textIn : Rect → String
  wordsIn : Rect → List Word
  width : ℚ
  height : ℚ

/-- One result dict of `process_pdf_bytes` (the rendered PDF bytes are
produced externally; we keep the clip that is rendered). -/
structure OutEntry where
  output_name : String
  sku : String
  pageIndex : ℕ
  clip : Rect
deriving DecidableEq, Repr

/-- The SKU a page yields: `extract_sku` applied to the text inside the
computed first-label clip. -/
def skuOfPage (cols : ℕ) (padX padY : ℚ) (p : Page) : Option String :=
  extract_sku (p.textIn (compute_first_label_clip p.blocks p.width p.height cols padX padY))

/-- The page loop of `process_pdf_bytes`: `seen` is the `seen_skus` set,
`idx` the current page index. -/
def processPages (cols : ℕ) (padX padY : ℚ) :
    List Page → ℕ → List String → List OutEntry
  | [], _, _ => []
  | p :: rest, idx, seen =>
    let labelRect := compute_first_label_clip p.blocks p.width p.height cols padX padY
    match extract_sku (p.textIn labelRect) with
    | none => processPages cols padX padY rest (idx + 1) seen
    | some sku =>
      if sku ∈ seen then processPages cols padX padY rest (idx + 1) seen
      else
        { output_name := "CHILE BARCODE HANGTAG " ++ sku ++ ".pdf"
          sku := sku
          pageIndex := idx
          clip :=
            match find_barcode_word_bbox (p.wordsIn labelRect) with
            | none => labelRect
            | some w => barcode_centered_clip labelRect ((w.x0 + w.x1) / 2) p.width p.height }
          :: processPages cols padX padY rest (idx + 1) (sku :: seen)

/-- `process_pdf_bytes` from `src/app.py` on one document (a list of
pages); `seen_skus` starts empty for every document. -/
def process_pdf_bytes (cols : ℕ) (padX padY : ℚ) (pages : List Page) : List OutEntry :=
  processPages cols padX padY pages 0 []

/-- The Streamlit batch loop of `src/app.py` (step 1): process each
uploaded document and concatenate the per-document results. -/
def processBatch (cols : ℕ) (padX padY : ℚ) (docs : List (List Page)) : List OutEntry :=
  (docs.map (process_pdf_bytes cols padX padY)).flatten

/-- First-occurrence deduplication of a stream, with an initial seen set:
the order-preserving behaviour of a Python membership-checked set. -/
def firstDedup : List String → List String → List String
  | _, [] => []
  | seen, s :: rest =>
    if s ∈ seen then firstDedup seen rest else s :: firstDedup (s :: seen) rest

/-- `groups.setdefault(ref, []).append(i)` on an insertion-ordered dict
modelled as an association list. -/
def addToGroups : List (String × List ℕ) → String → ℕ → List (String × List ℕ)
  | [], ref, i => [(ref, [i])]
  | (k, l) :: t, ref, i =>
    if k = ref then (k, l ++ [i]) :: t else (k, l) :: addToGroups t ref i

/-- `extract_groups` from `src/crop_carton_app.py` over the per-page texts
(`page.get_text()` of each page): map REFERENCIA → list of page indices,
in dict insertion order. -/
def extract_groups (texts : List String) : List (String × List ℕ) :=
  (List.range texts.length).foldl
    (fun gs i => addToGroups gs (extract_reference (texts.getD i "")) i) []

/-- One output of `build_group_pdfs`: the REFERENCIA, the output filename,
and the source page indices inserted (in order) into the cropped PDF. -/
structure GroupOut where
  ref : String
  filename : String
  pages : List ℕ
deriving DecidableEq, Repr

/-- `build_group_pdfs` from `src/crop_carton_app.py`: one cropped PDF per
REFERENCIA, containing every page of the group (the crop box and the PDF
bytes are applied externally; the page selection is what we model). -/
def build_group_pdfs (groups : List (String × List ℕ)) : List GroupOut :=
  groups.map (fun g =>
    { ref := g.1, filename := "CARTON BARCODE - " ++ g.1 ++ ".pdf", pages := g.2 })

/-- `TARGET_WIDTH / TARGET_HEIGHT` from `src/crop_carton_app.py`. -/
def target_ratio_default : ℚ := 680 / 480

/-- `np.where(arr < threshold)` on a raster given as an intensity function
with explicit dimensions: the `(y, x)` pairs of dark pixels, row-major. -/
def darkCoords (f : ℕ → ℕ → ℕ) (pixW pixH thr : ℕ) : List (ℕ × ℕ) :=
  ((List.range pixH).map (fun y =>
    (List.range pixW).filterMap (fun x =>
      if f y x < thr then some (y, x) else none))).flatten

/-- The aspect-ratio adjustment of `detect_crop_rect`: expand the box to
the target ratio around its center.  Computing `width / height` with
`height = 0` raises `ZeroDivisionError` in Python; that is the `.error`
case. -/
def expandToRatio (x0 y0 x1 y1 tr : ℚ) : Except Unit (ℚ × ℚ × ℚ × ℚ) :=
  let width := x1 - x0
  let height := y1 - y0
  if height = 0 then .error ()
  else
    let current := width / height
    if current > tr then
      let new_height := width / tr
      let center_y := (y0 + y1) / 2
      .ok (x0, center_y - new_height / 2, x1, center_y + new_height / 2)
    else
      let new_width := height * tr
      let center_x := (x0 + x1) / 2
      .ok (center_x - new_width / 2, y0, center_x + new_width / 2, y1)

/-- The pixel-space part of `detect_crop_rect` after the mask is known to
be nonempty: bound the dark pixels, expand to the target ratio, clamp to
the raster. -/
def detectBoxPx (coords : List (ℕ × ℕ)) (pixW pixH : ℕ) (tr : ℚ) :
    Except Unit (ℚ × ℚ × ℚ × ℚ) :=
  let x0 : ℚ := (listMinD (coords.map Prod.snd) 0 : ℕ)
  let x1 : ℚ := (listMaxD (coords.map Prod.snd) 0 : ℕ)
  let y0 : ℚ := (listMinD (coords.map Prod.fst) 0 : ℕ)
  let y1 : ℚ := (listMaxD (coords.map Prod.fst) 0 : ℕ)
  match expandToRatio x0 y0 x1 y1 tr with
  | .error e => .error e
  | .ok b =>
    .ok (max 0 b.1, max 0 b.2.1, min (pixW : ℚ) b.2.2.1, min (pixH : ℚ) b.2.2.2)

/-- `detect_crop_rect` from `src/crop_carton_app.py` (geometric part): the
raster is `f` with dimensions `pixW × pixH`, the page is `pageW × pageH`.
Returns the crop rectangle in PDF coordinates, or `.error` for the
`ZeroDivisionError` of `width / height` on a zero-height content box. -/
def detect_crop_rect (f : ℕ → ℕ → ℕ) (pixW pixH thr : ℕ)
    (pageW pageH tr : ℚ) : Except Unit Rect :=
  let coords := darkCoords f pixW pixH thr
  if coords.isEmpty then .ok ⟨0, 0, pageW, pageH⟩
  else
    match detectBoxPx coords pixW pixH tr with
    | .error e => .error e
    | .ok b =>
      let scale_x := pageW / pixW
      let scale_y := pageH / pixH
      .ok ⟨b.1 * scale_x, b.2.1 * scale_y, b.2.2.1 * scale_x, b.2.2.2 * scale_y⟩

instance {ε α : Type} [DecidableEq ε] [DecidableEq α] : DecidableEq (Except ε α) :=
  fun a b =>
    match a, b with
    | .error e, .error f =>
      if h : e = f then isTrue (by rw [h]) else isFalse (by simp [h])
    | .error _, .ok _ => isFalse (by simp)
    | .ok _, .error _ => isFalse (by simp)
    | .ok x, .ok y =>
      if h : x = y then isTrue (by rw [h]) else isFalse (by simp [h])

/-- Maximal digit count over a word list. -/
def maxDC (ws : List Word) : ℕ := (ws.map wordDC).foldr max 0

/-- First-match association lookup on the grouping dict. -/
def lookupGroup : List (String × List ℕ) → String → Option (List ℕ)
  | [], _ => none
  | (k, l) :: t, r => if k = r then some l else lookupGroup t r

/-- The grouping dict after the first `m` iterations of the
`extract_groups` loop, for an abstract per-page reference `ref`. -/
def groupsPrefix (ref : ℕ → String) (m : ℕ) : List (String × List ℕ) :=
  (List.range m).foldl (fun gs i => addToGroups gs (ref i) i) []

/-- The REFERENCIA of page `i` of the document. -/
def refAt (texts : List String) (i : ℕ) : String :=
  extract_reference (texts.getD i "")

theorem foldl_min_le_acc {α : Type} [LinearOrder α] (l : List α) (a : α) :
    l.foldl min a ≤ a := by
  induction l generalizing a with
  | nil => simp
  | cons x xs ih => exact le_trans (ih (min a x)) (min_le_left a x)

theorem foldl_min_le_mem {α : Type} [LinearOrder α] (l : List α) (a : α)
    (b : α) (hb : b ∈ l) : l.foldl min a ≤ b := by
  induction l generalizing a with
  | nil => cases hb
  | cons x xs ih =>
    rcases List.mem_cons.mp hb with h | h
    · subst h
      exact le_trans (foldl_min_le_acc xs (min a b)) (min_le_right a b)
    · exact ih (min a x) h

theorem foldl_min_eq_acc_or_mem {α : Type} [LinearOrder α] (l : List α) (a : α) :
    l.foldl min a = a ∨ l.foldl min a ∈ l := by
  induction l generalizing a with
  | nil => left; rfl
  | cons x xs ih =>
    rcases ih (min a x) with h | h
    · rcases min_cases a x with ⟨he, _⟩ | ⟨he, _⟩
      · left; rw [List.foldl_cons, h, he]
      · right; rw [List.foldl_cons, h, he]; exact List.mem_cons_self x xs
    · right; exact List.mem_cons_of_mem x h

theorem acc_le_foldl_max {α : Type} [LinearOrder α] (l : List α) (a : α) :
    a ≤ l.foldl max a := by
  induction l generalizing a with
  | nil => simp
  | cons x xs ih => exact le_trans (le_max_left a x) (ih (max a x))

theorem mem_le_foldl_max {α : Type} [LinearOrder α] (l : List α) (a : α)
    (b : α) (hb : b ∈ l) : b ≤ l.foldl max a := by
  induction l generalizing a with
  | nil => cases hb
  | cons x xs ih =>
    rcases List.mem_cons.mp hb with h | h
    · subst h
      exact le_trans (le_max_right a b) (acc_le_foldl_max xs (max a b))
    · exact ih (max a x) h

theorem foldl_max_eq_acc_or_mem {α : Type} [LinearOrder α] (l : List α) (a : α) :
    l.foldl max a = a ∨ l.foldl max a ∈ l := by
  induction l generalizing a with
  | nil => left; rfl
  | cons x xs ih =>
    rcases ih (max a x) with h | h
    · rcases max_cases a x with ⟨he, _⟩ | ⟨he, _⟩
      · left; rw [List.foldl_cons, h, he]
      · right; rw [List.foldl_cons, h, he]; exact List.mem_cons_self x xs
    · right; exact List.mem_cons_of_mem x h

theorem listMinD_le {α : Type} [LinearOrder α] (l : List α) (d : α)
    (b : α) (hb : b ∈ l) : listMinD l d ≤ b :=
  foldl_min_le_mem l _ b hb

theorem listMinD_mem {α : Type} [LinearOrder α] (l : List α) (d : α)
    (h : l ≠ []) : listMinD l d ∈ l := by
  rcases foldl_min_eq_acc_or_mem l (l.headD d) with he | he
  · rw [listMinD, he]
    cases l with
    | nil => exact absurd rfl h
    | cons x xs => exact List.mem_cons_self x xs
  · exact he

theorem le_listMaxD {α : Type} [LinearOrder α] (l : List α) (d : α)
    (b : α) (hb : b ∈ l) : b ≤ listMaxD l d :=
  mem_le_foldl_max l _ b hb

theorem listMaxD_mem {α : Type} [LinearOrder α] (l : List α) (d : α)
    (h : l ≠ []) : listMaxD l d ∈ l := by
  rcases foldl_max_eq_acc_or_mem l (l.headD d) with he | he
  · rw [listMaxD, he]
    cases l with
    | nil => exact absurd rfl h
    | cons x xs => exact List.mem_cons_self x xs
  · exact he

theorem maxDC_cons (w : Word) (ws : List Word) :
    maxDC (w :: ws) = max (wordDC w) (maxDC ws) := rfl

theorem le_maxDC (ws : List Word) (w : Word) (hw : w ∈ ws) : wordDC w ≤ maxDC ws := by
  induction ws with
  | nil => cases hw
  | cons v vs ih =>
    rcases List.mem_cons.mp hw with h | h
    · subst h; exact le_max_left _ _
    · exact le_trans (ih h) (le_max_right _ _)

theorem maxDC_lt_iff (ws : List Word) (n : ℕ) (hn : 0 < n) :
    maxDC ws < n ↔ ∀ w ∈ ws, wordDC w < n := by
  induction ws with
  | nil => simpa [maxDC] using hn
  | cons v vs ih =>
    rw [maxDC_cons, max_lt_iff]
    constructor
    · rintro ⟨h1, h2⟩ w hw
      rcases List.mem_cons.mp hw with h | h
      · subst h; exact h1
      · exact (ih.mp h2) w h
    · intro h
      exact ⟨h v (List.mem_cons_self v vs),
        ih.mpr (fun w hw => h w (List.mem_cons_of_mem v hw))⟩

theorem findBestWord_len (ws : List Word) (best : Option Word) (bl : ℕ) :
    (findBestWord ws best bl).2 = max bl (maxDC ws) := by
  induction ws generalizing best bl with
  | nil => simp [findBestWord, maxDC]
  | cons w vs ih =>
    rw [findBestWord, maxDC_cons]
    by_cases h : bl < wordDC w
    · rw [if_pos h, ih]
      exact (max_eq_right (le_trans h.le (le_max_left _ _))).symm
    · rw [if_neg h, ih, ← max_assoc, max_eq_left (le_of_not_lt h)]

theorem findBestWord_of_le (ws : List Word) (best : Option Word) (bl : ℕ)
    (h : maxDC ws ≤ bl) : (findBestWord ws best bl).1 = best := by
  induction ws generalizing best bl with
  | nil => rfl
  | cons w vs ih =>
    rw [maxDC_cons, max_le_iff] at h
    rw [findBestWord, if_neg (not_lt.mpr h.1)]
    exact ih best bl h.2

theorem findBestWord_of_lt (ws : List Word) (best : Option Word) (bl : ℕ)
    (h : bl < maxDC ws) :
    ∃ pre w post, ws = pre ++ w :: post ∧
      (findBestWord ws best bl).1 = some w ∧
      wordDC w = maxDC ws ∧ ∀ v ∈ pre, wordDC v < wordDC w := by
  induction ws generalizing best bl with
  | nil => exact absurd h (by simp [maxDC])
  | cons w vs ih =>
    rw [maxDC_cons] at h
    by_cases hd : bl < wordDC w
    · rw [findBestWord, if_pos hd]
      by_cases hm : maxDC vs ≤ wordDC w
      · refine ⟨[], w, vs, rfl, ?_, ?_, by simp⟩
        · exact findBestWord_of_le vs (some w) (wordDC w) hm
        · rw [maxDC_cons, max_eq_left hm]
      · push_neg at hm
        obtain ⟨pre, u, post, hsplit, hres, hdc, hpre⟩ := ih (some w) (wordDC w) hm
        refine ⟨w :: pre, u, post, by rw [hsplit, List.cons_append], hres, ?_, ?_⟩
        · rw [maxDC_cons, hdc, max_eq_right (le_of_lt hm)]
        · intro v hv
          rcases List.mem_cons.mp hv with hv | hv
          · subst hv; rw [hdc]; exact hm
          · exact hpre v hv
    · push_neg at hd
      have hm : bl < maxDC vs := by
        rcases lt_max_iff.mp h with h1 | h1
        · exact absurd h1 (not_lt.mpr hd)
        · exact h1
      rw [findBestWord, if_neg (not_lt.mpr hd)]
      obtain ⟨pre, u, post, hsplit, hres, hdc, hpre⟩ := ih best bl hm
      refine ⟨w :: pre, u, post, by rw [hsplit, List.cons_append], hres, ?_, ?_⟩
      · rw [maxDC_cons, hdc, max_eq_right (le_of_lt (lt_of_le_of_lt hd hm))]
      · intro v hv
        rcases List.mem_cons.mp hv with hv | hv
        · subst hv; rw [hdc]; exact lt_of_le_of_lt hd hm
        · exact hpre v hv

theorem find_barcode_none_iff (ws : List Word) :
    find_barcode_word_bbox ws = none ↔ maxDC ws < 8 := by
  rw [find_barcode_word_bbox]
  by_cases h : maxDC ws < 8
  · simp only [h, iff_true]
    by_cases h0 : maxDC ws = 0
    · rw [findBestWord_of_le ws none 0 (le_of_eq h0)]
    · have hlt : 0 < maxDC ws := Nat.pos_of_ne_zero h0
      obtain ⟨pre, w, post, _, hres, _, _⟩ := findBestWord_of_lt ws none 0 hlt
      rw [hres]
      simp only [findBestWord_len, Nat.zero_max]
      rw [if_pos h]
  · simp only [h, iff_false]
    have hlt : 0 < maxDC ws := lt_of_lt_of_le (by norm_num) (not_lt.mp h)
    obtain ⟨pre, w, post, _, hres, _, _⟩ := findBestWord_of_lt ws none 0 hlt
    rw [hres]
    simp only [findBestWord_len, Nat.zero_max]
    rw [if_neg h]
    simp

theorem find_barcode_some (ws : List Word) (w : Word)
    (h : find_barcode_word_bbox ws = some w) :
    8 ≤ wordDC w ∧ wordDC w = maxDC ws ∧
      ∃ pre post, ws = pre ++ w :: post ∧ ∀ v ∈ pre, wordDC v < wordDC w := by
  have hn : ¬ maxDC ws < 8 := by
    intro hlt
    rw [(find_barcode_none_iff ws).mpr hlt] at h
    cases h
  have hlt : 0 < maxDC ws := lt_of_lt_of_le (by norm_num) (not_lt.mp hn)
  obtain ⟨pre, u, post, hsplit, hres, hdc, hpre⟩ := findBestWord_of_lt ws none 0 hlt
  rw [find_barcode_word_bbox, hres] at h
  simp only [findBestWord_len, Nat.zero_max] at h
  rw [if_neg hn] at h
  cases h
  exact ⟨by rw [hdc]; exact not_lt.mp hn, hdc, pre, post, hsplit, hpre⟩

/-- C7: for every list of word tokens, `find_barcode_word_bbox` returns
`none` exactly when every token has fewer than 8 digit characters, and
when it returns a token that token has at least 8 digits, has a maximal
digit count among all tokens, and is the first token attaining that
count (every earlier token has strictly fewer digits). -/
theorem barcode_locator_picks_first_max_digits (ws : List Word) :
    (find_barcode_word_bbox ws = none ↔ ∀ w ∈ ws, wordDC w < 8) ∧
    (∀ w, find_barcode_word_bbox ws = some w →
      8 ≤ wordDC w ∧ (∀ v ∈ ws, wordDC v ≤ wordDC w) ∧
      ∃ pre post, ws = pre ++ w :: post ∧ ∀ v ∈ pre, wordDC v < wordDC w) := by
  constructor
  · rw [find_barcode_none_iff]
    exact maxDC_lt_iff ws 8 (by norm_num)
  · intro w h
    obtain ⟨h8, hdc, pre, post, hsplit, hpre⟩ := find_barcode_some ws w h
    exact ⟨h8, fun v hv => hdc ▸ le_maxDC ws v hv, pre, post, hsplit, hpre⟩

/-- Witness for C7: a 7-digit token is rejected (via the theorem's `none`
characterization), an 8-digit token is accepted, and a 10-digit token
beats an 8-digit one. -/
theorem barcode_locator_picks_first_max_digits_witness :
    find_barcode_word_bbox [⟨0, 0, 1, 1, "1234567"⟩] = none ∧
    find_barcode_word_bbox [⟨0, 0, 1, 1, "12345678"⟩] = some ⟨0, 0, 1, 1, "12345678"⟩ ∧
    find_barcode_word_bbox [⟨0, 0, 1, 1, "12345678"⟩, ⟨2, 0, 3, 1, "1234567890"⟩]
      = some ⟨2, 0, 3, 1, "1234567890"⟩ :=
  ⟨(barcode_locator_picks_first_max_digits [⟨0, 0, 1, 1, "1234567"⟩]).1.mpr (by decide),
   by decide, by decide⟩

theorem mem_firstDedup (l seen : List String) (x : String) :
    x ∈ firstDedup seen l ↔ x ∉ seen ∧ x ∈ l := by
  induction l generalizing seen with
  | nil => simp [firstDedup]
  | cons s rest ih =>
    rw [firstDedup]
    by_cases hs : s ∈ seen
    · rw [if_pos hs, ih]
      constructor
      · rintro ⟨h1, h2⟩; exact ⟨h1, List.mem_cons_of_mem s h2⟩
      · rintro ⟨h1, h2⟩
        rcases List.mem_cons.mp h2 with h | h
        · exact absurd (h ▸ hs) h1
        · exact ⟨h1, h⟩
    · rw [if_neg hs]
      constructor
      · intro hmem
        rcases List.mem_cons.mp hmem with rfl | hmem2
        · exact ⟨hs, List.mem_cons_self _ _⟩
        · obtain ⟨h1, h2⟩ := (ih (s :: seen)).mp hmem2
          exact ⟨fun hx => h1 (List.mem_cons_of_mem s hx), List.mem_cons_of_mem s h2⟩
      · rintro ⟨h1, h2⟩
        rcases List.mem_cons.mp h2 with rfl | h2a
        · exact List.mem_cons_self x _
        · by_cases hxs : x = s
          · subst hxs; exact List.mem_cons_self x _
          · refine List.mem_cons_of_mem s ((ih (s :: seen)).mpr ⟨?_, h2a⟩)
            intro hx
            rcases List.mem_cons.mp hx with h | h
            · exact hxs h
            · exact h1 h

theorem nodup_firstDedup (l seen : List String) : (firstDedup seen l).Nodup := by
  induction l generalizing seen with
  | nil => exact List.nodup_nil
  | cons s rest ih =>
    rw [firstDedup]
    by_cases hs : s ∈ seen
    · rw [if_pos hs]; exact ih seen
    · rw [if_neg hs]
      refine List.Nodup.cons ?_ (ih (s :: seen))
      intro hmem
      exact ((mem_firstDedup rest (s :: seen) s).mp hmem).1 (List.mem_cons_self s seen)

theorem firstDedup_congr_seen (l seen seen' : List String)
    (h : ∀ x, x ∈ seen ↔ x ∈ seen') :
    firstDedup seen l = firstDedup seen' l := by
  induction l generalizing seen seen' with
  | nil => rfl
  | cons s rest ih =>
    rw [firstDedup, firstDedup]
    by_cases hs : s ∈ seen
    · rw [if_pos hs, if_pos ((h s).mp hs)]
      exact ih seen seen' h
    · rw [if_neg hs, if_neg (fun hx => hs ((h s).mpr hx))]
      refine congrArg (s :: ·) (ih (s :: seen) (s :: seen') ?_)
      intro x
      simp only [List.mem_cons]
      exact or_congr Iff.rfl (h x)

theorem firstDedup_append_singleton (l seen : List String) (r : String) :
    firstDedup seen (l ++ [r])
      = firstDedup seen l ++ (if r ∈ seen ∨ r ∈ l then [] else [r]) := by
  induction l generalizing seen with
  | nil => by_cases h : r ∈ seen <;> simp [firstDedup, h]
  | cons s rest ih =>
    rw [List.cons_append, firstDedup, firstDedup]
    by_cases hs : s ∈ seen
    · rw [if_pos hs, if_pos hs, ih]
      congr 1
      by_cases hr : r ∈ seen ∨ r ∈ rest
      · rw [if_pos hr, if_pos (by
          rcases hr with h | h
          · exact Or.inl h
          · exact Or.inr (List.mem_cons_of_mem s h))]
      · rw [if_neg hr, if_neg (by
          rintro (h | h)
          · exact hr (Or.inl h)
          · rcases List.mem_cons.mp h with h1 | h1
            · exact hr (Or.inl (h1 ▸ hs))
            · exact hr (Or.inr h1))]
    · rw [if_neg hs, if_neg hs, ih, List.cons_append]
      congr 2
      by_cases hr : r ∈ s :: seen ∨ r ∈ rest
      · rw [if_pos hr, if_pos (by
          rcases hr with h | h
          · rcases List.mem_cons.mp h with h1 | h1
            · exact Or.inr (h1 ▸ List.mem_cons_self s rest)
            · exact Or.inl h1
          · exact Or.inr (List.mem_cons_of_mem s h))]
      · rw [if_neg hr, if_neg (by
          rintro (h | h)
          · exact hr (Or.inl (List.mem_cons_of_mem s h))
          · rcases List.mem_cons.mp h with h1 | h1
            · exact hr (Or.inl (h1 ▸ List.mem_cons_self s seen))
            · exact hr (Or.inr h1))]

theorem addToGroups_map_fst (gs : List (String × List ℕ)) (r : String) (i : ℕ) :
    (addToGroups gs r i).map Prod.fst =
      if r ∈ gs.map Prod.fst then gs.map Prod.fst else gs.map Prod.fst ++ [r] := by
  induction gs with
  | nil => simp [addToGroups]
  | cons p t ih =>
    obtain ⟨k, l⟩ := p
    rw [addToGroups]
    by_cases hk : k = r
    · subst hk
      rw [if_pos rfl]
      simp
    · rw [if_neg hk]
      simp only [List.map_cons, ih]
      by_cases hr : r ∈ t.map Prod.fst
      · rw [if_pos hr, if_pos (by simp [hr])]
      · rw [if_neg hr, if_neg (by
          simp only [List.mem_cons]
          rintro (h | h)
          · exact hk h.symm
          · exact hr h), List.cons_append]

theorem lookup_addToGroups_self (gs : List (String × List ℕ)) (r : String) (i : ℕ) :
    lookupGroup (addToGroups gs r i) r = some ((lookupGroup gs r).getD [] ++ [i]) := by
  induction gs with
  | nil => simp [addToGroups, lookupGroup]
  | cons p t ih =>
    obtain ⟨k, l⟩ := p
    rw [addToGroups]
    by_cases hk : k = r
    · subst hk
      rw [if_pos rfl, lookupGroup, lookupGroup, if_pos rfl, if_pos rfl]
      rfl
    · rw [if_neg hk, lookupGroup, lookupGroup, if_neg hk, if_neg hk, ih]

theorem lookup_addToGroups_ne (gs : List (String × List ℕ)) (r k : String) (i : ℕ)
    (h : k ≠ r) : lookupGroup (addToGroups gs r i) k = lookupGroup gs k := by
  induction gs with
  | nil =>
    simp only [addToGroups, lookupGroup]
    rw [if_neg (fun he => h he.symm)]
  | cons p t ih =>
    obtain ⟨k', l⟩ := p
    rw [addToGroups]
    by_cases hk : k' = r
    · subst hk
      rw [if_pos rfl, lookupGroup, lookupGroup,
        if_neg (fun he => h he.symm), if_neg (fun he => h he.symm)]
    · rw [if_neg hk, lookupGroup, lookupGroup]
      by_cases hkk : k' = k
      · rw [if_pos hkk, if_pos hkk]
      · rw [if_neg hkk, if_neg hkk, ih]

theorem lookup_of_mem (gs : List (String × List ℕ)) (p : String × List ℕ)
    (hnd : (gs.map Prod.fst).Nodup) (hp : p ∈ gs) :
    lookupGroup gs p.1 = some p.2 := by
  induction gs with
  | nil => cases hp
  | cons q t ih =>
    obtain ⟨k, l⟩ := q
    rw [List.map_cons, List.nodup_cons] at hnd
    rcases List.mem_cons.mp hp with h | h
    · subst h
      rw [lookupGroup, if_pos rfl]
    · rw [lookupGroup]
      by_cases hk : k = p.1
      · have hm : p.1 ∈ t.map Prod.fst := List.mem_map_of_mem Prod.fst h
        rw [← hk] at hm
        exact absurd hm hnd.1
      · rw [if_neg hk]
        exact ih hnd.2 h

theorem groupsPrefix_succ (ref : ℕ → String) (m : ℕ) :
    groupsPrefix ref (m + 1) = addToGroups (groupsPrefix ref m) (ref m) m := by
  rw [groupsPrefix, groupsPrefix, List.range_succ, List.foldl_append]
  rfl

theorem groupsPrefix_fst (ref : ℕ → String) (m : ℕ) :
    (groupsPrefix ref m).map Prod.fst = firstDedup [] ((List.range m).map ref) := by
  induction m with
  | zero => rfl
  | succ m ih =>
    rw [groupsPrefix_succ, addToGroups_map_fst, ih, List.range_succ,
      List.map_append, List.map_singleton, firstDedup_append_singleton]
    by_cases h : ref m ∈ (List.range m).map ref
    · have h2 : ref m ∈ firstDedup [] ((List.range m).map ref) :=
        (mem_firstDedup _ _ _).mpr ⟨List.not_mem_nil _, h⟩
      rw [if_pos h2, if_pos (Or.inr h), List.append_nil]
    · have h2 : ref m ∉ firstDedup [] ((List.range m).map ref) := fun hx =>
        h ((mem_firstDedup _ _ _).mp hx).2
      rw [if_neg h2, if_neg (by
        rintro (hc | hc)
        · cases hc
        · exact h hc)]

theorem groupsPrefix_lookup (ref : ℕ → String) (m : ℕ) (r : String) :
    lookupGroup (groupsPrefix ref m) r =
      (if ((List.range m).filter (fun i => ref i = r)).isEmpty then none
       else some ((List.range m).filter (fun i => ref i = r))) := by
  induction m with
  | zero => rfl
  | succ m ih =>
    rw [groupsPrefix_succ]
    by_cases hr : r = ref m
    · subst hr
      rw [lookup_addToGroups_self, ih, List.range_succ, List.filter_append]
      have hm : List.filter (fun i => decide (ref i = ref m)) [m] = [m] := by simp
      rw [hm]
      cases hc : ((List.range m).filter (fun i => ref i = ref m)).isEmpty with
      | true =>
        rw [List.isEmpty_iff] at hc
        rw [hc]
        simp
      | false =>
        rw [if_neg Bool.false_ne_true]
        simp
    · rw [lookup_addToGroups_ne _ _ _ _ hr, ih, List.range_succ, List.filter_append]
      have hne : ¬ ref m = r := fun h => hr h.symm
      have hm : List.filter (fun i => decide (ref i = r)) [m] = [] := by simp [hne]
      rw [hm, List.append_nil]

theorem groupsPrefix_snd (ref : ℕ → String) (m : ℕ) (p : String × List ℕ)
    (hp : p ∈ groupsPrefix ref m) :
    p.2 = (List.range m).filter (fun i => ref i = p.1) := by
  have hnd : ((groupsPrefix ref m).map Prod.fst).Nodup := by
    rw [groupsPrefix_fst]
    exact nodup_firstDedup _ _
  have h1 := lookup_of_mem _ p hnd hp
  rw [groupsPrefix_lookup] at h1
  cases hc : ((List.range m).filter (fun i => ref i = p.1)).isEmpty with
  | true => rw [if_pos hc] at h1; cases h1
  | false =>
    rw [if_neg (by rw [hc]; exact Bool.false_ne_true)] at h1
    exact (Option.some_injective _ h1).symm

theorem sum_ite_count (l : List String) (x : String) :
    (l.map (fun k => if x = k then (1 : ℕ) else 0)).sum = l.count x := by
  induction l with
  | nil => rfl
  | cons a t ih =>
    rw [List.map_cons, List.sum_cons, ih, List.count_cons]
    by_cases h : x = a
    · rw [if_pos h, if_pos (by rw [h]; exact beq_self_eq_true a)]
      omega
    · rw [if_neg h, if_neg (by
        intro hb
        exact h (eq_of_beq hb).symm)]
      omega

theorem extract_groups_eq_groupsPrefix (texts : List String) :
    extract_groups texts = groupsPrefix (refAt texts) texts.length := rfl

/-- C10: the groups returned by `extract_groups` partition the document's
page indices: each group's page list is strictly increasing, and every
page index `i < n` occurs exactly once across all the groups' page lists
combined. -/
theorem extract_groups_partitions_pages (texts : List String) (i : ℕ) :
    (∀ p ∈ extract_groups texts, p.2.Sorted (· < ·)) ∧
    (i < texts.length →
      ((extract_groups texts).map Prod.snd).flatten.count i = 1) := by
  rw [extract_groups_eq_groupsPrefix]
  constructor
  · intro p hp
    rw [groupsPrefix_snd _ _ p hp]
    exact List.Pairwise.filter _ (List.sorted_lt_range _)
  · intro hi
    rw [List.count_flatten, List.map_map]
    have hterm :
        (groupsPrefix (refAt texts) texts.length).map (List.count i ∘ Prod.snd)
          = (groupsPrefix (refAt texts) texts.length).map
              (fun p => if refAt texts i = p.1 then 1 else 0) := by
      refine List.map_congr_left ?_
      intro p hp
      have h2 := groupsPrefix_snd _ _ p hp
      simp only [Function.comp_apply, h2]
      by_cases hc : refAt texts i = p.1
      · rw [if_pos hc, List.count_filter (by simp [hc]),
          List.count_eq_one_of_mem (List.nodup_range _) (List.mem_range.mpr hi)]
      · rw [if_neg hc, List.count_eq_zero]
        intro hmem
        exact hc (of_decide_eq_true (List.mem_filter.mp hmem).2)
    have hcomp : (fun p : String × List ℕ => if refAt texts i = p.1 then (1 : ℕ) else 0)
        = ((fun k => if refAt texts i = k then (1 : ℕ) else 0) ∘ Prod.fst) := rfl
    rw [hterm, hcomp, ← List.map_map, sum_ite_count]
    refine List.count_eq_one_of_mem ?_ ?_
    · rw [groupsPrefix_fst]
      exact nodup_firstDedup _ _
    · rw [groupsPrefix_fst]
      refine (mem_firstDedup _ _ _).mpr ⟨List.not_mem_nil _, ?_⟩
      exact List.mem_map_of_mem (refAt texts) (List.mem_range.mpr hi)

/-- Witness for C10 on a concrete three-page document whose first and
third pages share a REFERENCIA. -/
theorem extract_groups_partitions_pages_witness :
    (([0, 2] : List ℕ).Sorted (· < ·)) ∧
    ((extract_groups ["REFERENCIA: A1", "x", "REFERENCIA: A1"]).map
      Prod.snd).flatten.count 1 = 1 :=
  ⟨(extract_groups_partitions_pages ["REFERENCIA: A1", "x", "REFERENCIA: A1"] 1).1
      ("A1", [0, 2]) (by decide),
   (extract_groups_partitions_pages ["REFERENCIA: A1", "x", "REFERENCIA: A1"] 1).2
      (by decide)⟩

theorem takeCount_spec (p : Char → Bool) (n : ℕ) (l t r : List Char)
    (h : takeCount p n l = some (t, r)) :
    t.length = n ∧ (∀ c ∈ t, p c = true) ∧ l = t ++ r := by
  induction n generalizing l t r with
  | zero =>
    rw [takeCount] at h
    cases h
    exact ⟨rfl, fun c hc => absurd hc (List.not_mem_nil c), rfl⟩
  | succ n ih =>
    cases l with
    | nil => cases h
    | cons c rest =>
      rw [takeCount] at h
      by_cases hp : p c
      · rw [if_pos hp] at h
        rcases Option.map_eq_some'.mp h with ⟨⟨t', r'⟩, ht', heq⟩
        cases heq
        obtain ⟨hlen, hall, happ⟩ := ih rest t' r' ht'
        refine ⟨by rw [List.length_cons, hlen], ?_, by rw [happ, List.cons_append]⟩
        intro x hx
        rcases List.mem_cons.mp hx with rfl | hx
        · exact hp
        · exact hall x hx
      · rw [if_neg hp] at h
        cases h

theorem matchSkuAt_spec (l : List Char) (c : Char) (d5 g1 g2 : List Char)
    (h : matchSkuAt l = some (c, d5, g1, g2)) :
    isUpperA c = true ∧
    d5.length = 5 ∧ (∀ x ∈ d5, isDigitC x = true) ∧
    g1.length = 4 ∧ (∀ x ∈ g1, isDigitC x = true) ∧
    g2.length = 4 ∧ (∀ x ∈ g2, isDigitC x = true) := by
  cases l with
  | nil => cases h
  | cons c' rest =>
    rw [matchSkuAt] at h
    by_cases hu : isUpperA c'
    · rw [if_pos hu] at h
      simp only [Option.bind_eq_some, Option.map_eq_some'] at h
      obtain ⟨p5, h5, r3, hr3, p1, h1, r5, hr5, p2, h2, heq⟩ := h
      cases heq
      obtain ⟨hl5, ha5, _⟩ := takeCount_spec _ _ _ _ _ h5
      obtain ⟨hl1, ha1, _⟩ := takeCount_spec _ _ _ _ _ h1
      obtain ⟨hl2, ha2, _⟩ := takeCount_spec _ _ _ _ _ h2
      exact ⟨hu, hl5, ha5, hl1, ha1, hl2, ha2⟩
    · rw [if_neg hu] at h
      cases h

theorem searchSku_spec (l : List Char) (c : Char) (d5 g1 g2 : List Char)
    (h : searchSku l = some (c, d5, g1, g2)) :
    isUpperA c = true ∧
    d5.length = 5 ∧ (∀ x ∈ d5, isDigitC x = true) ∧
    g1.length = 4 ∧ (∀ x ∈ g1, isDigitC x = true) ∧
    g2.length = 4 ∧ (∀ x ∈ g2, isDigitC x = true) := by
  induction l with
  | nil => cases h
  | cons c' rest ih =>
    rw [searchSku] at h
    cases hm : matchSkuAt (c' :: rest) with
    | some m =>
      rw [hm] at h
      cases h
      exact matchSkuAt_spec _ _ _ _ _ hm
    | none =>
      rw [hm] at h
      exact ih h

theorem pySplitAux_clean_prefix (w : List Char) :
    ∀ (l acc : List Char), (∀ c ∈ w, isPySpace c = false) →
      pySplitAux (w ++ l) acc = pySplitAux l (w.reverse ++ acc) := by
  induction w with
  | nil => intro l acc _; rfl
  | cons c w' ih =>
    intro l acc hw
    have hc : isPySpace c = false := hw c (List.mem_cons_self c w')
    rw [List.cons_append, pySplitAux, hc]
    simp only [Bool.false_eq_true, if_false]
    rw [ih l (c :: acc) (fun x hx => hw x (List.mem_cons_of_mem c hx))]
    rw [List.reverse_cons, List.append_assoc, List.singleton_append]

theorem pySplitAux_words_clean :
    ∀ (l acc : List Char), (∀ c ∈ acc, isPySpace c = false) →
      ∀ w ∈ pySplitAux l acc, w ≠ [] ∧ ∀ c ∈ w, isPySpace c = false := by
  intro l
  induction l with
  | nil =>
    intro acc hacc w hw
    rw [pySplitAux] at hw
    cases hai : acc.isEmpty with
    | true => rw [hai] at hw; cases hw
    | false =>
      rw [hai] at hw
      simp only [Bool.false_eq_true, if_false, List.mem_singleton] at hw
      subst hw
      refine ⟨?_, ?_⟩
      · intro he
        rw [List.isEmpty_eq_false] at hai
        exact hai (by simpa using congrArg List.reverse he)
      · intro c hc
        exact hacc c (List.mem_reverse.mp hc)
  | cons c rest ih =>
    intro acc hacc w hw
    rw [pySplitAux] at hw
    cases hsp : isPySpace c with
    | true =>
      rw [hsp] at hw
      simp only [if_true] at hw
      cases hai : acc.isEmpty with
      | true =>
        rw [hai] at hw
        simp only [if_true] at hw
        exact ih [] (fun x hx => absurd hx (List.not_mem_nil x)) w hw
      | false =>
        rw [hai] at hw
        simp only [Bool.false_eq_true, if_false, List.mem_cons] at hw
        rcases hw with rfl | hw
        · refine ⟨?_, ?_⟩
          · intro he
            rw [List.isEmpty_eq_false] at hai
            exact hai (by simpa using congrArg List.reverse he)
          · intro x hx
            exact hacc x (List.mem_reverse.mp hx)
        · exact ih [] (fun x hx => absurd hx (List.not_mem_nil x)) w hw
    | false =>
      rw [hsp] at hw
      simp only [Bool.false_eq_true, if_false] at hw
      refine ih (c :: acc) ?_ w hw
      intro x hx
      rcases List.mem_cons.mp hx with rfl | hx
      · exact hsp
      · exact hacc x hx

theorem pySplit_joinWords :
    ∀ ws : List (List Char),
      (∀ w ∈ ws, w ≠ [] ∧ ∀ c ∈ w, isPySpace c = false) →
      pySplit (joinWords ws) = ws := by
  intro ws
  induction ws with
  | nil => intro _; rfl
  | cons w tail ih =>
    intro hws
    obtain ⟨hne, hclean⟩ := hws w (List.mem_cons_self w tail)
    cases tail with
    | nil =>
      rw [joinWords, pySplit]
      have h1 := pySplitAux_clean_prefix w [] [] hclean
      rw [List.append_nil] at h1
      rw [h1, pySplitAux, List.append_nil]
      have hne2 : (w.reverse).isEmpty = false := by
        rw [List.isEmpty_eq_false]
        intro he
        exact hne (by simpa using congrArg List.reverse he)
      rw [hne2]
      simp
    | cons v tail2 =>
      rw [show joinWords (w :: v :: tail2) = w ++ ' ' :: joinWords (v :: tail2) from rfl,
        pySplit]
      have h1 := pySplitAux_clean_prefix w (' ' :: joinWords (v :: tail2)) [] hclean
      rw [List.append_nil] at h1
      rw [h1, pySplitAux]
      have hsp : isPySpace ' ' = true := rfl
      rw [hsp]
      simp only [if_true]
      have hne2 : (w.reverse).isEmpty = false := by
        rw [List.isEmpty_eq_false]
        intro he
        exact hne (by simpa using congrArg List.reverse he)
      rw [hne2]
      simp only [Bool.false_eq_true, if_false, List.reverse_reverse]
      rw [show pySplitAux (joinWords (v :: tail2)) [] = pySplit (joinWords (v :: tail2)) from rfl]
      rw [ih (fun x hx => hws x (List.mem_cons_of_mem w hx))]

theorem normalizeWs_idem (l : List Char) :
    normalizeWs (normalizeWs l) = normalizeWs l := by
  rw [normalizeWs, normalizeWs]
  exact congrArg joinWords
    (pySplit_joinWords (pySplit l)
      (pySplitAux_words_clean l [] (fun x hx => absurd hx (List.not_mem_nil x))))

/-- C6: the SKU extractor collapses internal whitespace to single spaces
(it is invariant under pre-normalization); `"C 50039    0007 0001"` and
`"C50039 0007 0001"` both extract to the canonical `"C50039 0007 0001"`;
text with no matching pattern yields `none`; and every successful result
has the canonical shape `<letter><5digits> <4digits> <4digits>` with no
space between the letter and the first digit group. -/
theorem extract_sku_canonical :
    (extract_sku "C 50039    0007 0001" = some "C50039 0007 0001") ∧
    (extract_sku "C50039 0007 0001" = some "C50039 0007 0001") ∧
    (extract_sku "PACKED 12 UNITS 2024" = none) ∧
    (∀ s : String, extract_sku (String.mk (normalizeWs s.data)) = extract_sku s) ∧
    (∀ s r : String, extract_sku s = some r →
      ∃ c d5 g1 g2, isUpperA c = true ∧
        d5.length = 5 ∧ (∀ x ∈ d5, isDigitC x = true) ∧
        g1.length = 4 ∧ (∀ x ∈ g1, isDigitC x = true) ∧
        g2.length = 4 ∧ (∀ x ∈ g2, isDigitC x = true) ∧
        r = String.mk (c :: (d5 ++ ' ' :: (g1 ++ ' ' :: g2)))) := by
  refine ⟨by decide, by decide, by decide, ?_, ?_⟩
  · intro s
    rw [extract_sku, extract_sku]
    rw [show (String.mk (normalizeWs s.data)).data = normalizeWs s.data from rfl]
    rw [normalizeWs_idem]
  · intro s r h
    rw [extract_sku] at h
    cases hs : searchSku (normalizeWs s.data) with
    | none => rw [hs] at h; cases h
    | some m =>
      obtain ⟨c, d5, g1, g2⟩ := m
      rw [hs] at h
      cases h
      obtain ⟨hu, h5, ha5, h1, ha1, h2, ha2⟩ := searchSku_spec _ _ _ _ _ hs
      exact ⟨c, d5, g1, g2, hu, h5, ha5, h1, ha1, h2, ha2, rfl⟩

/-- Witness for C6: the canonical-shape clause applied to the concrete
spaced input. -/
theorem extract_sku_canonical_witness :
    ∃ c d5 g1 g2, isUpperA c = true ∧
      d5.length = 5 ∧ (∀ x ∈ d5, isDigitC x = true) ∧
      g1.length = 4 ∧ (∀ x ∈ g1, isDigitC x = true) ∧
      g2.length = 4 ∧ (∀ x ∈ g2, isDigitC x = true) ∧
      ("C50039 0007 0001" : String) = String.mk (c :: (d5 ++ ' ' :: (g1 ++ ' ' :: g2))) :=
  extract_sku_canonical.2.2.2.2 "C 50039    0007 0001" "C50039 0007 0001" (by decide)

theorem getD_map_range {α : Type} (n j : ℕ) (g : ℕ → α) (d : α) (hj : j < n) :
    ((List.range n).map g).getD j d = g j := by
  rw [List.getD_eq_getElem?_getD, List.getElem?_map, List.getElem?_range hj]
  rfl

theorem pyMinRange_spec (k : ℕ) (f : ℕ → ℚ) (hk : 0 < k) :
    pyMinRange k f < k ∧ (∀ j < k, f (pyMinRange k f) ≤ f j) ∧
      ∀ j < pyMinRange k f, f (pyMinRange k f) < f j := by
  induction k with
  | zero => cases hk
  | succ k ih =>
    have hstep : pyMinRange (k + 1) f =
        if f k < f (pyMinRange k f) then k else pyMinRange k f := by
      rw [pyMinRange, pyMinRange, List.range_succ, List.foldl_append]
      rfl
    by_cases hk0 : k = 0
    · subst hk0
      have h0 : pyMinRange 1 f = 0 := by
        rw [hstep, pyMinRange]
        simp
      rw [h0]
      refine ⟨Nat.zero_lt_one, ?_, ?_⟩
      · intro j hj
        interval_cases j
        exact le_refl _
      · intro j hj
        cases hj
    · obtain ⟨hlt, hle, hfirst⟩ := ih (Nat.pos_of_ne_zero hk0)
      rw [hstep]
      by_cases hc : f k < f (pyMinRange k f)
      · rw [if_pos hc]
        refine ⟨Nat.lt_succ_self k, ?_, ?_⟩
        · intro j hj
          rcases Nat.lt_succ_iff_lt_or_eq.mp hj with hj | rfl
          · exact le_trans (le_of_lt hc) (hle j hj)
          · exact le_refl _
        · intro j hj
          exact lt_of_lt_of_le hc (hle j hj)
      · rw [if_neg hc]
        refine ⟨Nat.lt_succ_of_lt hlt, ?_, hfirst⟩
        intro j hj
        rcases Nat.lt_succ_iff_lt_or_eq.mp hj with hj | rfl
        · exact hle j hj
        · exact not_lt.mp hc

theorem nearestCenter_spec (x : ℚ) (centers : List ℚ) (hne : centers ≠ []) :
    nearestCenter x centers < centers.length ∧
    (∀ j < centers.length,
      |x - centers.getD (nearestCenter x centers) 0| ≤ |x - centers.getD j 0|) ∧
    (∀ j < nearestCenter x centers,
      |x - centers.getD (nearestCenter x centers) 0| < |x - centers.getD j 0|) :=
  pyMinRange_spec centers.length (fun j => |x - centers.getD j 0|)
    (List.length_pos.mpr hne)

theorem updateCenters_getD (xs : List ℚ) (a : List ℕ) (centers : List ℚ) (j : ℕ)
    (hj : j < centers.length) :
    (updateCenters xs a centers).getD j 0 =
      (if ((xs.zip a).filterMap
            (fun p => if p.2 = j then some p.1 else none)).isEmpty then
        centers.getD j 0
       else ((xs.zip a).filterMap (fun p => if p.2 = j then some p.1 else none)).sum
          / ((xs.zip a).filterMap (fun p => if p.2 = j then some p.1 else none)).length) := by
  rw [updateCenters, getD_map_range _ _ _ _ hj]

theorem kmeansLoop_eq_iterate (xs : List ℚ) (n : ℕ) (s : List ℚ × List ℕ) :
    kmeansLoop xs n s = (kmeansStep xs)^[n] s := by
  induction n generalizing s with
  | zero => rfl
  | succ n ih => rw [kmeansLoop, ih, Function.iterate_succ_apply]

/-- C5: with at least one fragment, `k > 1` columns and a nonconstant
x-center list, the clusterer starts from `k` centers evenly spaced over
the observed data range (first center at the minimum, last at the
maximum), runs exactly 10 assignment/update rounds (the loop is 10
applications of `kmeansStep`, with no convergence exit), assigns each
point to the nearest center by absolute distance with ties broken by the
lowest center index, and leaves a center with no members unchanged (a
center with members becomes their mean). -/
theorem kmeans_ten_rounds_nearest_center (xs : List ℚ) (k : ℕ)
    (hne : xs ≠ []) (hk : 1 < k)
    (hvar : listMinD xs 0 < listMaxD xs 0) :
    (kmeansLoop xs 10 (initCenters (listMinD xs 0) (listMaxD xs 0) k,
        List.replicate xs.length 0)
      = (kmeansStep xs)^[10] (initCenters (listMinD xs 0) (listMaxD xs 0) k,
          List.replicate xs.length 0)) ∧
    (initCenters (listMinD xs 0) (listMaxD xs 0) k).length = k ∧
    (∀ i < k, (initCenters (listMinD xs 0) (listMaxD xs 0) k).getD i 0
      = listMinD xs 0 + i * ((listMaxD xs 0 - listMinD xs 0) / ((k : ℚ) - 1))) ∧
    (initCenters (listMinD xs 0) (listMaxD xs 0) k).getD 0 0 = listMinD xs 0 ∧
    (initCenters (listMinD xs 0) (listMaxD xs 0) k).getD (k - 1) 0 = listMaxD xs 0 ∧
    (listMinD xs 0 ∈ xs ∧ listMaxD xs 0 ∈ xs) ∧
    (∀ i, i + 1 < k →
      (initCenters (listMinD xs 0) (listMaxD xs 0) k).getD i 0
        < (initCenters (listMinD xs 0) (listMaxD xs 0) k).getD (i + 1) 0) ∧
    (∀ s : List ℚ × List ℕ,
      kmeansStep xs s = (updateCenters xs (xs.map (fun x => nearestCenter x s.1)) s.1,
        xs.map (fun x => nearestCenter x s.1))) ∧
    (∀ (x : ℚ) (centers : List ℚ), centers ≠ [] →
      nearestCenter x centers < centers.length ∧
      (∀ j < centers.length,
        |x - centers.getD (nearestCenter x centers) 0| ≤ |x - centers.getD j 0|) ∧
      (∀ j < nearestCenter x centers,
        |x - centers.getD (nearestCenter x centers) 0| < |x - centers.getD j 0|)) ∧
    (∀ (a : List ℕ) (centers : List ℚ) (j : ℕ), j < centers.length →
      ((xs.zip a).filterMap (fun p => if p.2 = j then some p.1 else none) = [] →
        (updateCenters xs a centers).getD j 0 = centers.getD j 0) ∧
      ((xs.zip a).filterMap (fun p => if p.2 = j then some p.1 else none) ≠ [] →
        (updateCenters xs a centers).getD j 0
          = ((xs.zip a).filterMap (fun p => if p.2 = j then some p.1 else none)).sum
            / ((xs.zip a).filterMap (fun p => if p.2 = j then some p.1 else none)).length)) := by
  have hk0 : (0 : ℕ) < k := lt_trans Nat.zero_lt_one hk
  have hkQ : ((k : ℚ) - 1) ≠ 0 := by
    have : (1 : ℚ) < (k : ℚ) := by exact_mod_cast hk
    intro h
    rw [sub_eq_zero] at h
    rw [← h] at this
    exact lt_irrefl _ this
  refine ⟨kmeansLoop_eq_iterate xs 10 _, by rw [initCenters, List.length_map,
    List.length_range], ?_, ?_, ?_,
    ⟨listMinD_mem xs 0 hne, listMaxD_mem xs 0 hne⟩, ?_,
    fun s => rfl, fun x c h => nearestCenter_spec x c h, ?_⟩
  · intro i hi
    rw [initCenters, getD_map_range _ _ _ _ hi]
  · rw [initCenters, getD_map_range _ _ _ _ hk0]
    simp
  · rw [initCenters, getD_map_range _ _ _ _ (Nat.sub_lt hk0 Nat.zero_lt_one)]
    rw [Nat.cast_sub (Nat.one_le_of_lt hk), Nat.cast_one]
    field_simp
  · intro i hi
    rw [initCenters, getD_map_range _ _ _ _ hi,
      getD_map_range _ _ _ _ (lt_of_le_of_lt (Nat.le_succ i) hi)]
    have hpos : 0 < (listMaxD xs 0 - listMinD xs 0) / ((k : ℚ) - 1) := by
      apply div_pos (by linarith)
      have h1 : (1 : ℚ) < (k : ℚ) := by exact_mod_cast hk
      linarith
    have hcast : ((i + 1 : ℕ) : ℚ) = (i : ℚ) + 1 := by push_cast; ring
    rw [hcast]
    nlinarith [hpos]
  · intro a centers j hj
    constructor
    · intro hemp
      rw [updateCenters_getD _ _ _ _ hj, hemp]
      rfl
    · intro hemp
      rw [updateCenters_getD _ _ _ _ hj,
        if_neg (by rw [List.isEmpty_eq_true]; exact hemp)]

/-- Witness for C5 on a concrete two-point, two-column input. -/
theorem kmeans_ten_rounds_nearest_center_witness :
    (initCenters (listMinD [(0 : ℚ), 10] 0) (listMaxD [(0 : ℚ), 10] 0) 2).getD 0 0
      = listMinD [(0 : ℚ), 10] 0 :=
  (kmeans_ten_rounds_nearest_center [(0 : ℚ), 10] 2 (by decide)
    (by norm_num) (by norm_num [listMinD, listMaxD])).2.2.2.1

/-- Counterexample to C4 as stated: on a page of width 60 (narrower than
the 82.69-point reference width) with the barcode centered at x = 25, the
shifted window still has `x0 < 0`, so its horizontal extent does not lie
within `[0, pageWidth]` (the width is preserved, the containment is not). -/
theorem barcode_clip_narrow_page_escapes :
    (barcode_centered_clip ⟨0, 0, 40, 100⟩ 25 60 100).x1
      - (barcode_centered_clip ⟨0, 0, 40, 100⟩ 25 60 100).x0 = REF_LABEL_WIDTH ∧
    (barcode_centered_clip ⟨0, 0, 40, 100⟩ 25 60 100).x0 < 0 := by
  norm_num [barcode_centered_clip, REF_LABEL_WIDTH, REF_LABEL_HEIGHT]

/-- C4 (amended): the barcode-centered window always has exactly the
reference width and the reference height (shifting is rigid, never a
clip); whenever the reference width fits on the page, the shifted
horizontal extent lies within `[0, pageWidth]`; a window already inside
the page is left unshifted; and a window whose height fits below the
label top keeps the label top as its `y0`.  (As stated the claim fails
when the page is narrower than the reference width — see the
counterexample.) -/
theorem barcode_clip_shift_preserves_size (labelRect : Rect) (cx pageW pageH : ℚ) :
    (barcode_centered_clip labelRect cx pageW pageH).x1
      - (barcode_centered_clip labelRect cx pageW pageH).x0 = REF_LABEL_WIDTH ∧
    (barcode_centered_clip labelRect cx pageW pageH).y1
      - (barcode_centered_clip labelRect cx pageW pageH).y0 = REF_LABEL_HEIGHT ∧
    (REF_LABEL_WIDTH ≤ pageW →
      0 ≤ (barcode_centered_clip labelRect cx pageW pageH).x0 ∧
      (barcode_centered_clip labelRect cx pageW pageH).x1 ≤ pageW) ∧
    (0 ≤ cx - REF_LABEL_WIDTH / 2 → cx + REF_LABEL_WIDTH / 2 ≤ pageW →
      (barcode_centered_clip labelRect cx pageW pageH).x0 = cx - REF_LABEL_WIDTH / 2 ∧
      (barcode_centered_clip labelRect cx pageW pageH).x1 = cx + REF_LABEL_WIDTH / 2) ∧
    (labelRect.y0 + REF_LABEL_HEIGHT ≤ pageH →
      (barcode_centered_clip labelRect cx pageW pageH).y0 = labelRect.y0 ∧
      (barcode_centered_clip labelRect cx pageW pageH).y1
        = labelRect.y0 + REF_LABEL_HEIGHT) := by
  simp only [barcode_centered_clip]
  split_ifs with h1 h2 h2 h3 <;>
    dsimp only <;>
    refine ⟨by ring, by ring, fun hle => ⟨by linarith, by linarith⟩,
      fun ha hb => ⟨by linarith, by linarith⟩, fun hy => ⟨by linarith, by linarith⟩⟩

/-- Witness for C4 at a concrete in-page window. -/
theorem barcode_clip_shift_preserves_size_witness :
    REF_LABEL_WIDTH ≤ 600 ∧
    (0 ≤ (barcode_centered_clip ⟨0, 0, 100, 100⟩ 300 600 800).x0 ∧
      (barcode_centered_clip ⟨0, 0, 100, 100⟩ 300 600 800).x1 ≤ 600) :=
  ⟨by norm_num [REF_LABEL_WIDTH],
   (barcode_clip_shift_preserves_size ⟨0, 0, 100, 100⟩ 300 600 800).2.2.1
     (by norm_num [REF_LABEL_WIDTH])⟩

theorem naiveFirstColumn_in_bounds (pageW pageH : ℚ) (cols : ℕ)
    (hW : 0 ≤ pageW) (hH : 0 ≤ pageH) (hcols : 0 < cols) :
    (naiveFirstColumn pageW pageH cols).InBounds pageW pageH := by
  refine ⟨le_refl 0, ?_, ?_, le_refl 0, hH, le_refl _⟩
  · exact div_nonneg hW (by exact_mod_cast Nat.zero_le cols)
  · exact div_le_self hW (by exact_mod_cast hcols)

theorem firstColumnBlocks_subset (bd : List Block) (s : List ℚ × List ℕ) :
    ∀ b ∈ firstColumnBlocks bd s, b ∈ bd := by
  intro b hb
  rw [firstColumnBlocks] at hb
  rcases List.mem_filterMap.mp hb with ⟨p, hp, hsome⟩
  by_cases hc : p.2 = pyMinRange s.1.length (fun j => s.1.getD j 0)
  · rw [if_pos hc] at hsome
    cases hsome
    obtain ⟨a, c⟩ := p
    exact (List.of_mem_zip hp).1
  · rw [if_neg hc] at hsome
    cases hsome

theorem tightRect_in_bounds (fbs : List Block) (pageW pageH padX padY : ℚ)
    (hne : fbs ≠ []) (hpx : 0 ≤ padX) (hpy : 0 ≤ padY)
    (hW : 0 ≤ pageW) (hH : 0 ≤ pageH)
    (hb : ∀ b ∈ fbs, 0 ≤ b.x0 ∧ b.x0 ≤ b.x1 ∧ b.x1 ≤ pageW ∧
      0 ≤ b.y0 ∧ b.y0 ≤ b.y1 ∧ b.y1 ≤ pageH) :
    (tightRect fbs pageW pageH padX padY).InBounds pageW pageH := by
  have hmapne : ∀ g : Block → ℚ, fbs.map g ≠ [] := by
    intro g h
    exact hne (List.map_eq_nil_iff.mp h)
  obtain ⟨b0, hb0⟩ : ∃ b, b ∈ fbs := by
    cases fbs with
    | nil => exact absurd rfl hne
    | cons b t => exact ⟨b, List.mem_cons_self b t⟩
  obtain ⟨bx, hbx, hbxe⟩ := List.mem_map.mp (listMinD_mem (fbs.map Block.x0) 0 (hmapne _))
  obtain ⟨cx, hcx, hcxe⟩ := List.mem_map.mp (listMaxD_mem (fbs.map Block.x1) 0 (hmapne _))
  obtain ⟨by', hby, hbye⟩ := List.mem_map.mp (listMinD_mem (fbs.map Block.y0) 0 (hmapne _))
  obtain ⟨dy, hdy, hdye⟩ := List.mem_map.mp (listMaxD_mem (fbs.map Block.y1) 0 (hmapne _))
  have hminx0 : 0 ≤ listMinD (fbs.map Block.x0) 0 := by
    rw [← hbxe]; exact (hb bx hbx).1
  have hminxW : listMinD (fbs.map Block.x0) 0 ≤ pageW := by
    rw [← hbxe]
    obtain ⟨h1, h2, h3, _⟩ := hb bx hbx
    linarith
  have hmaxx0 : 0 ≤ listMaxD (fbs.map Block.x1) 0 := by
    rw [← hcxe]
    obtain ⟨h1, h2, _⟩ := hb cx hcx
    linarith
  have hminmaxx : listMinD (fbs.map Block.x0) 0 ≤ listMaxD (fbs.map Block.x1) 0 := by
    have h1 : listMinD (fbs.map Block.x0) 0 ≤ b0.x0 :=
      listMinD_le _ _ _ (List.mem_map_of_mem Block.x0 hb0)
    have h2 : b0.x1 ≤ listMaxD (fbs.map Block.x1) 0 :=
      le_listMaxD _ _ _ (List.mem_map_of_mem Block.x1 hb0)
    obtain ⟨_, h3, _⟩ := hb b0 hb0
    linarith
  have hminy0 : 0 ≤ listMinD (fbs.map Block.y0) 0 := by
    rw [← hbye]; exact (hb by' hby).2.2.2.1
  have hminyH : listMinD (fbs.map Block.y0) 0 ≤ pageH := by
    rw [← hbye]
    obtain ⟨_, _, _, h1, h2, h3⟩ := hb by' hby
    linarith
  have hmaxy0 : 0 ≤ listMaxD (fbs.map Block.y1) 0 := by
    rw [← hdye]
    obtain ⟨_, _, _, h1, h2, _⟩ := hb dy hdy
    linarith
  have hminmaxy : listMinD (fbs.map Block.y0) 0 ≤ listMaxD (fbs.map Block.y1) 0 := by
    have h1 : listMinD (fbs.map Block.y0) 0 ≤ b0.y0 :=
      listMinD_le _ _ _ (List.mem_map_of_mem Block.y0 hb0)
    have h2 : b0.y1 ≤ listMaxD (fbs.map Block.y1) 0 :=
      le_listMaxD _ _ _ (List.mem_map_of_mem Block.y1 hb0)
    obtain ⟨_, _, _, _, h3, _⟩ := hb b0 hb0
    linarith
  refine ⟨le_max_left 0 _, ?_, min_le_left _ _, le_max_left 0 _, ?_, min_le_left _ _⟩
  · apply max_le
    · exact le_min hW (by linarith)
    · exact le_min (by linarith) (by linarith)
  · apply max_le
    · exact le_min hH (by linarith)
    · exact le_min (by linarith) (by linarith)

theorem compute_clip_in_bounds (blocks : List Block) (pageW pageH : ℚ)
    (cols : ℕ) (padX padY : ℚ) (hcols : 0 < cols)
    (hW : 0 ≤ pageW) (hH : 0 ≤ pageH) (hpx : 0 ≤ padX) (hpy : 0 ≤ padY)
    (hblocks : ∀ b ∈ blocks, 0 ≤ b.x0 ∧ b.x0 ≤ b.x1 ∧ b.x1 ≤ pageW ∧
      0 ≤ b.y0 ∧ b.y0 ≤ b.y1 ∧ b.y1 ≤ pageH) :
    (compute_first_label_clip blocks pageW pageH cols padX padY).InBounds pageW pageH := by
  rw [compute_first_label_clip]
  simp only []
  split_ifs with h1 h2
  · exact naiveFirstColumn_in_bounds pageW pageH cols hW hH hcols
  · exact naiveFirstColumn_in_bounds pageW pageH cols hW hH hcols
  · apply tightRect_in_bounds
    · rw [← List.isEmpty_eq_false]
      cases he : (firstColumnBlocks (blocks.filter fun b => !(pyStrip b.text.data).isEmpty)
          (clusterState ((blocks.filter fun b => !(pyStrip b.text.data).isEmpty).map blockCx)
            cols)).isEmpty
      · rfl
      · exact absurd he h2
    · exact hpx
    · exact hpy
    · exact hW
    · exact hH
    · intro b hbfb
      have hbd := firstColumnBlocks_subset _ _ b hbfb
      exact hblocks b (List.mem_of_mem_filter hbd)

theorem barcode_clip_in_bounds (labelRect : Rect) (cx pageW pageH : ℚ)
    (hy : 0 ≤ labelRect.y0)
    (hw : REF_LABEL_WIDTH ≤ pageW) (hh : REF_LABEL_HEIGHT ≤ pageH) :
    (barcode_centered_clip labelRect cx pageW pageH).InBounds pageW pageH := by
  have hW0 : (0 : ℚ) < REF_LABEL_WIDTH := by norm_num [REF_LABEL_WIDTH]
  have hH0 : (0 : ℚ) < REF_LABEL_HEIGHT := by norm_num [REF_LABEL_HEIGHT]
  simp only [barcode_centered_clip]
  split_ifs with h1 h2 h2 h3 <;> dsimp only <;>
    exact ⟨by linarith, by linarith, by linarith, by linarith, by linarith, by linarith⟩

theorem darkCoords_mem_bounds (f : ℕ → ℕ → ℕ) (pixW pixH thr : ℕ) :
    ∀ c ∈ darkCoords f pixW pixH thr, c.1 < pixH ∧ c.2 < pixW := by
  intro c hc
  rw [darkCoords] at hc
  rcases List.mem_flatten.mp hc with ⟨row, hrow, hcrow⟩
  rcases List.mem_map.mp hrow with ⟨y, hy, rfl⟩
  rcases List.mem_filterMap.mp hcrow with ⟨x, hx, hsome⟩
  by_cases hlt : f y x < thr
  · rw [if_pos hlt] at hsome
    cases hsome
    exact ⟨List.mem_range.mp hy, List.mem_range.mp hx⟩
  · rw [if_neg hlt] at hsome
    cases hsome

theorem expandToRatio_error_iff (x0 y0 x1 y1 tr : ℚ) :
    expandToRatio x0 y0 x1 y1 tr = .error () ↔ y1 - y0 = 0 := by
  rw [expandToRatio]
  by_cases h : y1 - y0 = 0
  · rw [if_pos h]
    simp [h]
  · rw [if_neg h]
    constructor
    · intro hcontra
      by_cases hc : tr < (x1 - x0) / (y1 - y0)
      · rw [if_pos hc] at hcontra
        cases hcontra
      · rw [if_neg hc] at hcontra
        cases hcontra
    · intro hcontra
      exact absurd hcontra h

theorem expandToRatio_ok_spec (x0 y0 x1 y1 tr a b c d : ℚ)
    (hx : x0 ≤ x1) (hy : y0 ≤ y1) (htr : 0 < tr)
    (h : expandToRatio x0 y0 x1 y1 tr = .ok (a, b, c, d)) :
    (a ≤ x0 ∧ x1 ≤ c ∧ b ≤ y0 ∧ y1 ≤ d) ∧
    (x1 - x0 ≤ c - a ∧ y1 - y0 ≤ d - b) ∧
    (c - a = (d - b) * tr) ∧
    (a + c = x0 + x1 ∧ b + d = y0 + y1) ∧
    ((x1 - x0) / (y1 - y0) > tr → a = x0 ∧ c = x1 ∧ d - b = (x1 - x0) / tr) ∧
    (¬ (x1 - x0) / (y1 - y0) > tr → b = y0 ∧ d = y1 ∧ c - a = (y1 - y0) * tr) := by
  rw [expandToRatio] at h
  by_cases h0 : y1 - y0 = 0
  · rw [if_pos h0] at h
    cases h
  · rw [if_neg h0] at h
    have hypos : 0 < y1 - y0 := lt_of_le_of_ne (by linarith) (Ne.symm h0)
    by_cases hc : (x1 - x0) / (y1 - y0) > tr
    · rw [if_pos hc] at h
      cases h
      have hkey : tr * (y1 - y0) < x1 - x0 := by
        rw [gt_iff_lt, lt_div_iff hypos] at hc
        exact hc
      have hgrow : y1 - y0 ≤ (x1 - x0) / tr := by
        rw [le_div_iff htr]
        nlinarith
      have hcancel : (x1 - x0) / tr * tr = x1 - x0 :=
        div_mul_cancel₀ _ (ne_of_gt htr)
      have htr' : tr ≠ 0 := ne_of_gt htr
      refine ⟨⟨le_refl _, le_refl _, by linarith, by linarith⟩,
        ⟨by linarith, by linarith⟩, by field_simp; ring, ⟨by ring, by ring⟩,
        fun _ => ⟨rfl, rfl, by ring⟩, fun hcon => absurd hc hcon⟩
    · rw [if_neg hc] at h
      cases h
      have hkey : x1 - x0 ≤ tr * (y1 - y0) := by
        rw [gt_iff_lt, not_lt, div_le_iff hypos] at hc
        nlinarith
      refine ⟨⟨by linarith, by linarith, le_refl _, le_refl _⟩,
        ⟨by nlinarith, by linarith⟩, by ring, ⟨by ring, by ring⟩,
        fun hcon => absurd hcon hc, fun _ => ⟨rfl, rfl, by ring⟩⟩

theorem detectBoxPx_ok_bounds (coords : List (ℕ × ℕ)) (pixW pixH : ℕ) (tr : ℚ)
    (hne : coords ≠ []) (htr : 0 < tr)
    (hbound : ∀ c ∈ coords, c.1 < pixH ∧ c.2 < pixW)
    (b : ℚ × ℚ × ℚ × ℚ) (h : detectBoxPx coords pixW pixH tr = .ok b) :
    0 ≤ b.1 ∧ b.1 ≤ b.2.2.1 ∧ b.2.2.1 ≤ (pixW : ℚ) ∧
    0 ≤ b.2.1 ∧ b.2.1 ≤ b.2.2.2 ∧ b.2.2.2 ≤ (pixH : ℚ) := by
  obtain ⟨c0, hc0⟩ : ∃ c, c ∈ coords := by
    cases coords with
    | nil => exact absurd rfl hne
    | cons c t => exact ⟨c, List.mem_cons_self c t⟩
  have hmapne : ∀ g : ℕ × ℕ → ℕ, coords.map g ≠ [] := by
    intro g hmap
    exact hne (List.map_eq_nil_iff.mp hmap)
  have hxle : listMinD (coords.map Prod.snd) 0 ≤ listMaxD (coords.map Prod.snd) 0 :=
    le_trans (listMinD_le _ _ _ (List.mem_map_of_mem Prod.snd hc0))
      (le_listMaxD _ _ _ (List.mem_map_of_mem Prod.snd hc0))
  have hyle : listMinD (coords.map Prod.fst) 0 ≤ listMaxD (coords.map Prod.fst) 0 :=
    le_trans (listMinD_le _ _ _ (List.mem_map_of_mem Prod.fst hc0))
      (le_listMaxD _ _ _ (List.mem_map_of_mem Prod.fst hc0))
  have hxmax : listMaxD (coords.map Prod.snd) 0 < pixW := by
    obtain ⟨c1, hc1, he⟩ := List.mem_map.mp (listMaxD_mem (coords.map Prod.snd) 0 (hmapne _))
    rw [← he]
    exact (hbound c1 hc1).2
  have hymax : listMaxD (coords.map Prod.fst) 0 < pixH := by
    obtain ⟨c1, hc1, he⟩ := List.mem_map.mp (listMaxD_mem (coords.map Prod.fst) 0 (hmapne _))
    rw [← he]
    exact (hbound c1 hc1).1
  rw [detectBoxPx] at h
  cases hexp : expandToRatio (↑(listMinD (coords.map Prod.snd) 0))
      (↑(listMinD (coords.map Prod.fst) 0)) (↑(listMaxD (coords.map Prod.snd) 0))
      (↑(listMaxD (coords.map Prod.fst) 0)) tr with
  | error e =>
    rw [hexp] at h
    cases h
  | ok bb =>
    rw [hexp] at h
    cases h
    obtain ⟨aa, bbb, cc, dd⟩ := bb
    obtain ⟨⟨hax, hxc, hby, hyd⟩, _, _, _, _, _⟩ :=
      expandToRatio_ok_spec _ _ _ _ _ _ _ _ _
        (by exact_mod_cast hxle) (by exact_mod_cast hyle) htr hexp
    have hX0 : (0 : ℚ) ≤ (listMinD (coords.map Prod.snd) 0 : ℕ) := Nat.cast_nonneg _
    have hY0 : (0 : ℚ) ≤ (listMinD (coords.map Prod.fst) 0 : ℕ) := Nat.cast_nonneg _
    have hXW : ((listMaxD (coords.map Prod.snd) 0 : ℕ) : ℚ) ≤ (pixW : ℚ) := by
      exact_mod_cast le_of_lt hxmax
    have hYH : ((listMaxD (coords.map Prod.fst) 0 : ℕ) : ℚ) ≤ (pixH : ℚ) := by
      exact_mod_cast le_of_lt hymax
    have hxle' : ((listMinD (coords.map Prod.snd) 0 : ℕ) : ℚ)
        ≤ ((listMaxD (coords.map Prod.snd) 0 : ℕ) : ℚ) := by exact_mod_cast hxle
    have hyle' : ((listMinD (coords.map Prod.fst) 0 : ℕ) : ℚ)
        ≤ ((listMaxD (coords.map Prod.fst) 0 : ℕ) : ℚ) := by exact_mod_cast hyle
    refine ⟨le_max_left 0 _, ?_, min_le_left _ _, le_max_left 0 _, ?_, min_le_left _ _⟩
    · apply max_le
      · exact le_min (Nat.cast_nonneg _) (by linarith)
      · exact le_min (by linarith) (by linarith)
    · apply max_le
      · exact le_min (Nat.cast_nonneg _) (by linarith)
      · exact le_min (by linarith) (by linarith)

theorem detect_crop_rect_in_bounds (f : ℕ → ℕ → ℕ) (pixW pixH thr : ℕ)
    (pageW pageH tr : ℚ) (r : Rect)
    (hpw : 0 < pixW) (hph : 0 < pixH) (hW : 0 ≤ pageW) (hH : 0 ≤ pageH)
    (htr : 0 < tr)
    (h : detect_crop_rect f pixW pixH thr pageW pageH tr = .ok r) :
    r.InBounds pageW pageH := by
  rw [detect_crop_rect] at h
  by_cases hemp : (darkCoords f pixW pixH thr).isEmpty
  · rw [if_pos hemp] at h
    cases h
    exact ⟨le_refl 0, hW, le_refl _, le_refl 0, hH, le_refl _⟩
  · rw [if_neg hemp] at h
    cases hbx : detectBoxPx (darkCoords f pixW pixH thr) pixW pixH tr with
    | error e =>
      rw [hbx] at h
      cases h
    | ok b =>
      rw [hbx] at h
      cases h
      have hne : darkCoords f pixW pixH thr ≠ [] := by
        intro hnil
        rw [hnil] at hemp
        exact hemp rfl
      obtain ⟨h1, h2, h3, h4, h5, h6⟩ := detectBoxPx_ok_bounds _ _ _ _ hne htr
        (darkCoords_mem_bounds f pixW pixH thr) b hbx
      have hsx : (0 : ℚ) ≤ pageW / (pixW : ℚ) :=
        div_nonneg hW (Nat.cast_nonneg _)
      have hsy : (0 : ℚ) ≤ pageH / (pixH : ℚ) :=
        div_nonneg hH (Nat.cast_nonneg _)
      have hpwq : ((pixW : ℚ)) ≠ 0 := by
        exact_mod_cast Nat.pos_iff_ne_zero.mp hpw
      have hphq : ((pixH : ℚ)) ≠ 0 := by
        exact_mod_cast Nat.pos_iff_ne_zero.mp hph
      have hfullx : (pixW : ℚ) * (pageW / (pixW : ℚ)) = pageW := by
        field_simp
      have hfully : (pixH : ℚ) * (pageH / (pixH : ℚ)) = pageH := by
        field_simp
      refine ⟨mul_nonneg h1 hsx, mul_le_mul_of_nonneg_right h2 hsx, ?_,
        mul_nonneg h4 hsy, mul_le_mul_of_nonneg_right h5 hsy, ?_⟩
      · calc b.2.2.1 * (pageW / (pixW : ℚ))
            ≤ (pixW : ℚ) * (pageW / (pixW : ℚ)) := mul_le_mul_of_nonneg_right h3 hsx
          _ = pageW := hfullx
      · calc b.2.2.2 * (pageH / (pixH : ℚ))
            ≤ (pixH : ℚ) * (pageH / (pixH : ℚ)) := mul_le_mul_of_nonneg_right h6 hsy
          _ = pageH := hfully

/-- Counterexample to C3 as stated: on a 50×90 page the barcode-centered
crop (reference width ≈ 82.69 exceeds the page width) is shifted in both
directions and ends with `x0 < 0`, outside `[0, pageWidth]`. -/
theorem rect_out_of_bounds_on_narrow_page :
    ¬ (barcode_centered_clip ⟨0, 0, 30, 90⟩ 25 50 90).InBounds 50 90 := by
  norm_num [barcode_centered_clip, REF_LABEL_WIDTH, REF_LABEL_HEIGHT, Rect.InBounds]

/-- C3 (amended): every rectangle produced by the three rectangle-producing
components lies within `[0, pageWidth] × [0, pageHeight]` of the space it
is expressed in, under the domain conditions the code relies on: the
text blocks lie within the page and the padding is nonnegative (leftmost
column clip); the page is at least the fixed reference label size
(barcode-centered clip — see the counterexample for a narrower page); the
raster is nonempty and the target ratio positive (content-mask crop, in
PDF coordinates). -/
theorem produced_rects_in_bounds :
    (∀ (blocks : List Block) (pageW pageH : ℚ) (cols : ℕ) (padX padY : ℚ),
      0 < cols → 0 ≤ pageW → 0 ≤ pageH → 0 ≤ padX → 0 ≤ padY →
      (∀ b ∈ blocks, 0 ≤ b.x0 ∧ b.x0 ≤ b.x1 ∧ b.x1 ≤ pageW ∧
        0 ≤ b.y0 ∧ b.y0 ≤ b.y1 ∧ b.y1 ≤ pageH) →
      (compute_first_label_clip blocks pageW pageH cols padX padY).InBounds pageW pageH) ∧
    (∀ (labelRect : Rect) (cx pageW pageH : ℚ),
      0 ≤ labelRect.y0 → REF_LABEL_WIDTH ≤ pageW → REF_LABEL_HEIGHT ≤ pageH →
      (barcode_centered_clip labelRect cx pageW pageH).InBounds pageW pageH) ∧
    (∀ (f : ℕ → ℕ → ℕ) (pixW pixH thr : ℕ) (pageW pageH tr : ℚ) (r : Rect),
      0 < pixW → 0 < pixH → 0 ≤ pageW → 0 ≤ pageH → 0 < tr →
      detect_crop_rect f pixW pixH thr pageW pageH tr = .ok r →
      r.InBounds pageW pageH) :=
  ⟨fun blocks pageW pageH cols padX padY h1 h2 h3 h4 h5 h6 =>
      compute_clip_in_bounds blocks pageW pageH cols padX padY h1 h2 h3 h4 h5 h6,
   fun labelRect cx pageW pageH h1 h2 h3 =>
      barcode_clip_in_bounds labelRect cx pageW pageH h1 h2 h3,
   fun f pixW pixH thr pageW pageH tr r h1 h2 h3 h4 h5 h6 =>
      detect_crop_rect_in_bounds f pixW pixH thr pageW pageH tr r h1 h2 h3 h4 h5 h6⟩

/-- Witness for C3: the barcode-centered clip on an amply sized page. -/
theorem produced_rects_in_bounds_witness :
    (barcode_centered_clip ⟨0, 0, 100, 100⟩ 40 200 200).InBounds 200 200 :=
  produced_rects_in_bounds.2.1 ⟨0, 0, 100, 100⟩ 40 200 200 (le_refl 0)
    (by norm_num [REF_LABEL_WIDTH]) (by norm_num [REF_LABEL_HEIGHT])

/-- Counterexample to C8 as stated: this raster has dark pixels (the whole
first row), yet no aspect-corrected box is produced — the computation
fails on the zero-height content box (`width / height` with `height = 0`
raises `ZeroDivisionError` in Python, the `.error` case here). -/
theorem aspect_expansion_zero_height_failure :
    ((fun (y : ℕ) (_ : ℕ) => if y = 0 then (0 : ℕ) else 255) 0 0 < 250) ∧
    detect_crop_rect (fun y _ => if y = 0 then 0 else 255) 5 4 250 10 10
      target_ratio_default = .error () := by
  refine ⟨by decide, ?_⟩
  have h : darkCoords (fun y _ => if y = 0 then 0 else 255) 5 4 250
      = [(0, 0), (0, 1), (0, 2), (0, 3), (0, 4)] := by decide
  rw [detect_crop_rect, h]
  have hx0 : listMinD ([((0 : ℕ), (0 : ℕ)), (0, 1), (0, 2), (0, 3), (0, 4)].map Prod.snd) 0
      = 0 := by decide
  have hx1 : listMaxD ([((0 : ℕ), (0 : ℕ)), (0, 1), (0, 2), (0, 3), (0, 4)].map Prod.snd) 0
      = 4 := by decide
  have hy0 : listMinD ([((0 : ℕ), (0 : ℕ)), (0, 1), (0, 2), (0, 3), (0, 4)].map Prod.fst) 0
      = 0 := by decide
  have hy1 : listMaxD ([((0 : ℕ), (0 : ℕ)), (0, 1), (0, 2), (0, 3), (0, 4)].map Prod.fst) 0
      = 0 := by decide
  simp only [List.isEmpty_cons, Bool.false_eq_true, if_false, detectBoxPx,
    hx0, hx1, hy0, hy1, expandToRatio]
  norm_num

/-- C8 (amended): when the raster has dark pixels spanning at least two
distinct rows (positive content-box height; a single-row box instead
raises — see the counterexample), the detected pixel box is forced to the
target aspect ratio by expanding only (never shrinking) around the
original box's center — height grows to `width/ratio` when
`width/height > ratio`, otherwise width grows to `height*ratio` — and the
expanded box is then clamped into the raster bounds. -/
theorem aspect_expansion_spec (coords : List (ℕ × ℕ)) (pixW pixH : ℕ)
    (tr x0q y0q x1q y1q : ℚ)
    (hx0 : x0q = ((listMinD (coords.map Prod.snd) 0 : ℕ) : ℚ))
    (hx1 : x1q = ((listMaxD (coords.map Prod.snd) 0 : ℕ) : ℚ))
    (hy0 : y0q = ((listMinD (coords.map Prod.fst) 0 : ℕ) : ℚ))
    (hy1 : y1q = ((listMaxD (coords.map Prod.fst) 0 : ℕ) : ℚ))
    (hne : coords ≠ []) (htr : 0 < tr) (hh : y0q < y1q) :
    ∃ a b c d : ℚ,
      expandToRatio x0q y0q x1q y1q tr = .ok (a, b, c, d) ∧
      detectBoxPx coords pixW pixH tr
        = .ok (max 0 a, max 0 b, min (pixW : ℚ) c, min (pixH : ℚ) d) ∧
      (a ≤ x0q ∧ x1q ≤ c ∧ b ≤ y0q ∧ y1q ≤ d) ∧
      (x1q - x0q ≤ c - a ∧ y1q - y0q ≤ d - b) ∧
      (c - a = (d - b) * tr) ∧
      (a + c = x0q + x1q ∧ b + d = y0q + y1q) ∧
      ((x1q - x0q) / (y1q - y0q) > tr → a = x0q ∧ c = x1q ∧ d - b = (x1q - x0q) / tr) ∧
      (¬ (x1q - x0q) / (y1q - y0q) > tr →
        b = y0q ∧ d = y1q ∧ c - a = (y1q - y0q) * tr) := by
  subst hx0 hx1 hy0 hy1
  obtain ⟨c0, hc0⟩ : ∃ c, c ∈ coords := by
    cases coords with
    | nil => exact absurd rfl hne
    | cons c t => exact ⟨c, List.mem_cons_self c t⟩
  have hxle : ((listMinD (coords.map Prod.snd) 0 : ℕ) : ℚ)
      ≤ ((listMaxD (coords.map Prod.snd) 0 : ℕ) : ℚ) := by
    exact_mod_cast le_trans (listMinD_le _ _ _ (List.mem_map_of_mem Prod.snd hc0))
      (le_listMaxD _ _ _ (List.mem_map_of_mem Prod.snd hc0))
  cases hexp : expandToRatio ((listMinD (coords.map Prod.snd) 0 : ℕ) : ℚ)
      ((listMinD (coords.map Prod.fst) 0 : ℕ) : ℚ)
      ((listMaxD (coords.map Prod.snd) 0 : ℕ) : ℚ)
      ((listMaxD (coords.map Prod.fst) 0 : ℕ) : ℚ) tr with
  | error e =>
    obtain ⟨⟩ := e
    have := (expandToRatio_error_iff _ _ _ _ _).mp hexp
    linarith
  | ok bb =>
    obtain ⟨a, b, c, d⟩ := bb
    obtain ⟨houter, hgrow, hratio, hcenter, hpos, hneg⟩ :=
      expandToRatio_ok_spec _ _ _ _ _ _ _ _ _ hxle (le_of_lt hh) htr hexp
    refine ⟨a, b, c, d, rfl, ?_, houter, hgrow, hratio, hcenter, hpos, hneg⟩
    rw [detectBoxPx, hexp]

/-- Witness for C8 on a concrete two-pixel diagonal raster content. -/
theorem aspect_expansion_spec_witness :
    ∃ a b c d : ℚ,
      expandToRatio ((listMinD ([((0 : ℕ), (0 : ℕ)), (2, 1)].map Prod.snd) 0 : ℕ) : ℚ)
          ((listMinD ([((0 : ℕ), (0 : ℕ)), (2, 1)].map Prod.fst) 0 : ℕ) : ℚ)
          ((listMaxD ([((0 : ℕ), (0 : ℕ)), (2, 1)].map Prod.snd) 0 : ℕ) : ℚ)
          ((listMaxD ([((0 : ℕ), (0 : ℕ)), (2, 1)].map Prod.fst) 0 : ℕ) : ℚ)
          target_ratio_default = .ok (a, b, c, d) ∧
      detectBoxPx [((0 : ℕ), (0 : ℕ)), (2, 1)] 8 6 target_ratio_default
        = .ok (max 0 a, max 0 b, min ((8 : ℕ) : ℚ) c, min ((6 : ℕ) : ℚ) d) ∧
      (a ≤ ((listMinD ([((0 : ℕ), (0 : ℕ)), (2, 1)].map Prod.snd) 0 : ℕ) : ℚ) ∧
        ((listMaxD ([((0 : ℕ), (0 : ℕ)), (2, 1)].map Prod.snd) 0 : ℕ) : ℚ) ≤ c ∧
        b ≤ ((listMinD ([((0 : ℕ), (0 : ℕ)), (2, 1)].map Prod.fst) 0 : ℕ) : ℚ) ∧
        ((listMaxD ([((0 : ℕ), (0 : ℕ)), (2, 1)].map Prod.fst) 0 : ℕ) : ℚ) ≤ d) ∧
      (((listMaxD ([((0 : ℕ), (0 : ℕ)), (2, 1)].map Prod.snd) 0 : ℕ) : ℚ)
          - ((listMinD ([((0 : ℕ), (0 : ℕ)), (2, 1)].map Prod.snd) 0 : ℕ) : ℚ) ≤ c - a ∧
        ((listMaxD ([((0 : ℕ), (0 : ℕ)), (2, 1)].map Prod.fst) 0 : ℕ) : ℚ)
          - ((listMinD ([((0 : ℕ), (0 : ℕ)), (2, 1)].map Prod.fst) 0 : ℕ) : ℚ) ≤ d - b) ∧
      (c - a = (d - b) * target_ratio_default) ∧
      (a + c = ((listMinD ([((0 : ℕ), (0 : ℕ)), (2, 1)].map Prod.snd) 0 : ℕ) : ℚ)
          + ((listMaxD ([((0 : ℕ), (0 : ℕ)), (2, 1)].map Prod.snd) 0 : ℕ) : ℚ) ∧
        b + d = ((listMinD ([((0 : ℕ), (0 : ℕ)), (2, 1)].map Prod.fst) 0 : ℕ) : ℚ)
          + ((listMaxD ([((0 : ℕ), (0 : ℕ)), (2, 1)].map Prod.fst) 0 : ℕ) : ℚ)) ∧
      ((((listMaxD ([((0 : ℕ), (0 : ℕ)), (2, 1)].map Prod.snd) 0 : ℕ) : ℚ)
            - ((listMinD ([((0 : ℕ), (0 : ℕ)), (2, 1)].map Prod.snd) 0 : ℕ) : ℚ))
          / (((listMaxD ([((0 : ℕ), (0 : ℕ)), (2, 1)].map Prod.fst) 0 : ℕ) : ℚ)
            - ((listMinD ([((0 : ℕ), (0 : ℕ)), (2, 1)].map Prod.fst) 0 : ℕ) : ℚ))
          > target_ratio_default →
        a = ((listMinD ([((0 : ℕ), (0 : ℕ)), (2, 1)].map Prod.snd) 0 : ℕ) : ℚ) ∧
        c = ((listMaxD ([((0 : ℕ), (0 : ℕ)), (2, 1)].map Prod.snd) 0 : ℕ) : ℚ) ∧
        d - b = (((listMaxD ([((0 : ℕ), (0 : ℕ)), (2, 1)].map Prod.snd) 0 : ℕ) : ℚ)
            - ((listMinD ([((0 : ℕ), (0 : ℕ)), (2, 1)].map Prod.snd) 0 : ℕ) : ℚ))
          / target_ratio_default) ∧
      (¬ (((listMaxD ([((0 : ℕ), (0 : ℕ)), (2, 1)].map Prod.snd) 0 : ℕ) : ℚ)
            - ((listMinD ([((0 : ℕ), (0 : ℕ)), (2, 1)].map Prod.snd) 0 : ℕ) : ℚ))
          / (((listMaxD ([((0 : ℕ), (0 : ℕ)), (2, 1)].map Prod.fst) 0 : ℕ) : ℚ)
            - ((listMinD ([((0 : ℕ), (0 : ℕ)), (2, 1)].map Prod.fst) 0 : ℕ) : ℚ))
          > target_ratio_default →
        b = ((listMinD ([((0 : ℕ), (0 : ℕ)), (2, 1)].map Prod.fst) 0 : ℕ) : ℚ) ∧
        d = ((listMaxD ([((0 : ℕ), (0 : ℕ)), (2, 1)].map Prod.fst) 0 : ℕ) : ℚ) ∧
        c - a = (((listMaxD ([((0 : ℕ), (0 : ℕ)), (2, 1)].map Prod.fst) 0 : ℕ) : ℚ)
            - ((listMinD ([((0 : ℕ), (0 : ℕ)), (2, 1)].map Prod.fst) 0 : ℕ) : ℚ))
          * target_ratio_default) :=
  aspect_expansion_spec [((0 : ℕ), (0 : ℕ)), (2, 1)] 8 6 target_ratio_default
    _ _ _ _ rfl rfl rfl rfl (by decide) (by norm_num [target_ratio_default])
    (by norm_num [listMinD, listMaxD])

/-- C9: on a raster whose dark pixels all lie in one row, the content box
has zero height and the code evaluates `width / height` with
`height = 0` — a `ZeroDivisionError` (the `.error` result of the
embedding) instead of the rectangle the claim promises. -/
theorem detect_crop_single_row_raises :
    detect_crop_rect (fun y _ => if y = 2 then 0 else 255) 6 6 250 100 100
      target_ratio_default = .error () := by
  have h : darkCoords (fun y _ => if y = 2 then 0 else 255) 6 6 250
      = [(2, 0), (2, 1), (2, 2), (2, 3), (2, 4), (2, 5)] := by decide
  rw [detect_crop_rect, h]
  have hx0 : listMinD ([((2 : ℕ), (0 : ℕ)), (2, 1), (2, 2), (2, 3), (2, 4), (2, 5)].map
      Prod.snd) 0 = 0 := by decide
  have hx1 : listMaxD ([((2 : ℕ), (0 : ℕ)), (2, 1), (2, 2), (2, 3), (2, 4), (2, 5)].map
      Prod.snd) 0 = 5 := by decide
  have hy0 : listMinD ([((2 : ℕ), (0 : ℕ)), (2, 1), (2, 2), (2, 3), (2, 4), (2, 5)].map
      Prod.fst) 0 = 2 := by decide
  have hy1 : listMaxD ([((2 : ℕ), (0 : ℕ)), (2, 1), (2, 2), (2, 3), (2, 4), (2, 5)].map
      Prod.fst) 0 = 2 := by decide
  simp only [List.isEmpty_cons, Bool.false_eq_true, if_false, detectBoxPx,
    hx0, hx1, hy0, hy1, expandToRatio]
  norm_num

theorem range_map_getD {α β : Type} (l : List α) (d : α) (f : α → β) :
    (List.range l.length).map (fun i => f (l.getD i d)) = l.map f := by
  induction l with
  | nil => rfl
  | cons a t ih =>
    rw [List.length_cons, List.range_succ_eq_map, List.map_cons, List.map_map,
      List.map_cons]
    exact congrArg (List.cons (f a)) ih

theorem processPages_sku_map (cols : ℕ) (padX padY : ℚ) :
    ∀ (pages : List Page) (idx : ℕ) (seen : List String),
      (processPages cols padX padY pages idx seen).map OutEntry.sku
        = firstDedup seen (pages.filterMap (skuOfPage cols padX padY)) := by
  intro pages
  induction pages with
  | nil => intro idx seen; rfl
  | cons p rest ih =>
    intro idx seen
    cases hs : extract_sku (p.textIn
        (compute_first_label_clip p.blocks p.width p.height cols padX padY)) with
    | none =>
      have hsku : skuOfPage cols padX padY p = none := hs
      simp only [List.filterMap_cons, hsku]
      simp only [processPages, hs]
      exact ih (idx + 1) seen
    | some s =>
      have hsku : skuOfPage cols padX padY p = some s := hs
      simp only [List.filterMap_cons, hsku]
      by_cases hseen : s ∈ seen
      · simp only [processPages, hs, if_pos hseen]
        rw [ih (idx + 1) seen, firstDedup, if_pos hseen]
      · simp only [processPages, hs, if_neg hseen]
        rw [List.map_cons, ih (idx + 1) (s :: seen), firstDedup, if_neg hseen]

theorem processPages_entries (cols : ℕ) (padX padY : ℚ) :
    ∀ (pages : List Page) (idx : ℕ) (seen : List String),
      ∀ o ∈ processPages cols padX padY pages idx seen,
        o.sku ∉ seen ∧
        o.output_name = "CHILE BARCODE HANGTAG " ++ o.sku ++ ".pdf" ∧
        ∃ j p, j < pages.length ∧ o.pageIndex = idx + j ∧ pages[j]? = some p ∧
          skuOfPage cols padX padY p = some o.sku ∧
          ∀ j' p', j' < j → pages[j']? = some p' →
            skuOfPage cols padX padY p' ≠ some o.sku := by
  intro pages
  induction pages with
  | nil => intro idx seen o ho; cases ho
  | cons p rest ih =>
    intro idx seen o ho
    cases hs : extract_sku (p.textIn
        (compute_first_label_clip p.blocks p.width p.height cols padX padY)) with
    | none =>
      have hsku : skuOfPage cols padX padY p = none := hs
      simp only [processPages, hs] at ho
      obtain ⟨hns, hname, j, q, hj, hidx, hget, hsq, hfirst⟩ := ih (idx + 1) seen o ho
      refine ⟨hns, hname, j + 1, q, by simpa using hj, by omega, by simpa using hget,
        hsq, ?_⟩
      intro j' p' hj' hget'
      cases j' with
      | zero =>
        rw [List.getElem?_cons_zero] at hget'
        cases hget'
        rw [hsku]
        exact fun hcon => Option.noConfusion hcon
      | succ j'' =>
        rw [List.getElem?_cons_succ] at hget'
        exact hfirst j'' p' (by omega) hget'
    | some s =>
      have hsku : skuOfPage cols padX padY p = some s := hs
      by_cases hseen : s ∈ seen
      · simp only [processPages, hs, if_pos hseen] at ho
        obtain ⟨hns, hname, j, q, hj, hidx, hget, hsq, hfirst⟩ := ih (idx + 1) seen o ho
        refine ⟨hns, hname, j + 1, q, by simpa using hj, by omega, by simpa using hget,
          hsq, ?_⟩
        intro j' p' hj' hget'
        cases j' with
        | zero =>
          rw [List.getElem?_cons_zero] at hget'
          cases hget'
          rw [hsku]
          intro hcon
          cases hcon
          exact hns hseen
        | succ j'' =>
          rw [List.getElem?_cons_succ] at hget'
          exact hfirst j'' p' (by omega) hget'
      · simp only [processPages, hs, if_neg hseen, List.mem_cons] at ho
        rcases ho with rfl | ho
        · refine ⟨hseen, rfl, 0, p, by simp, by simp, List.getElem?_cons_zero, hsku, ?_⟩
          intro j' p' hj' _
          cases hj'
        · obtain ⟨hns, hname, j, q, hj, hidx, hget, hsq, hfirst⟩ :=
            ih (idx + 1) (s :: seen) o ho
          have hnss : o.sku ∉ seen := fun hx => hns (List.mem_cons_of_mem s hx)
          have hneq : o.sku ≠ s := fun he => hns (he ▸ List.mem_cons_self s seen)
          refine ⟨hnss, hname, j + 1, q, by simpa using hj, by omega,
            by simpa using hget, hsq, ?_⟩
          intro j' p' hj' hget'
          cases j' with
          | zero =>
            rw [List.getElem?_cons_zero] at hget'
            cases hget'
            rw [hsku]
            intro hcon
            cases hcon
            exact hneq rfl
          | succ j'' =>
            rw [List.getElem?_cons_succ] at hget'
            exact hfirst j'' p' (by omega) hget'

/-- Counterexample to C1 as stated: the same SKU in two documents of one
batch yields two output units (the `seen_skus` set is per document, not
per batch), and in the REFERENCIA pipeline a later page with the same
identifier is merged into the group's output PDF, not dropped. -/
theorem batch_dedup_counterexample :
    (processBatch 3 5 8
        [[{ blocks := [], textIn := fun _ => "C50039 0007 0001",
            wordsIn := fun _ => [], width := 90, height := 90 }],
         [{ blocks := [], textIn := fun _ => "C50039 0007 0001",
            wordsIn := fun _ => [], width := 90, height := 90 }]]).map OutEntry.sku
      = ["C50039 0007 0001", "C50039 0007 0001"] ∧
    build_group_pdfs (extract_groups ["REFERENCIA: A1 x", "REFERENCIA: A1 y"])
      = [{ ref := "A1", filename := "CARTON BARCODE - A1.pdf", pages := [0, 1] }] := by
  exact ⟨by decide, by decide⟩

/-- C1 (amended): deduplication is scoped to one document, not to the
batch.  Within one document of the SKU pipeline, each distinct identifier
yields exactly one output unit, built from the first page bearing it
(earlier pages never carry that identifier), later pages with it are
dropped, and outputs appear in first-occurrence order (the output SKU
stream is exactly the first-occurrence dedup of the per-page SKU stream);
output names are derived from the SKU.  In the REFERENCIA pipeline each
identifier yields exactly one output unit, in first-occurrence order, but
that unit merges every page bearing the identifier instead of keeping
only the first. -/
theorem per_document_dedup_first_occurrence :
    (∀ (cols : ℕ) (padX padY : ℚ) (pages : List Page),
      ((process_pdf_bytes cols padX padY pages).map OutEntry.sku).Nodup ∧
      (process_pdf_bytes cols padX padY pages).map OutEntry.sku
        = firstDedup [] (pages.filterMap (skuOfPage cols padX padY)) ∧
      (∀ o ∈ process_pdf_bytes cols padX padY pages,
        o.output_name = "CHILE BARCODE HANGTAG " ++ o.sku ++ ".pdf" ∧
        ∃ p, pages[o.pageIndex]? = some p ∧
          skuOfPage cols padX padY p = some o.sku ∧
          ∀ j p', j < o.pageIndex → pages[j]? = some p' →
            skuOfPage cols padX padY p' ≠ some o.sku)) ∧
    (∀ texts : List String,
      ((build_group_pdfs (extract_groups texts)).map GroupOut.ref).Nodup ∧
      (build_group_pdfs (extract_groups texts)).map GroupOut.ref
        = firstDedup [] (texts.map extract_reference) ∧
      ∀ g ∈ build_group_pdfs (extract_groups texts),
        g.filename = "CARTON BARCODE - " ++ g.ref ++ ".pdf" ∧
        g.pages = (List.range texts.length).filter
          (fun i => extract_reference (texts.getD i "") = g.ref)) := by
  constructor
  · intro cols padX padY pages
    refine ⟨?_, processPages_sku_map cols padX padY pages 0 [], ?_⟩
    · rw [process_pdf_bytes, processPages_sku_map cols padX padY pages 0 []]
      exact nodup_firstDedup _ _
    · intro o ho
      obtain ⟨_, hname, j, p, hj, hidx, hget, hsku, hfirst⟩ :=
        processPages_entries cols padX padY pages 0 [] o ho
      have hidx0 : o.pageIndex = j := by omega
      refine ⟨hname, p, by rw [hidx0]; exact hget, hsku, ?_⟩
      intro j' p' hj' hget'
      exact hfirst j' p' (by omega) hget'
  · intro texts
    have hmapref : (build_group_pdfs (extract_groups texts)).map GroupOut.ref
        = (extract_groups texts).map Prod.fst := by
      rw [build_group_pdfs, List.map_map]
      rfl
    have hkeys : (extract_groups texts).map Prod.fst
        = firstDedup [] (texts.map extract_reference) := by
      rw [extract_groups_eq_groupsPrefix, groupsPrefix_fst]
      refine congrArg (firstDedup []) ?_
      exact range_map_getD texts "" extract_reference
    refine ⟨?_, by rw [hmapref, hkeys], ?_⟩
    · rw [hmapref, hkeys]
      exact nodup_firstDedup _ _
    · intro g hg
      rw [build_group_pdfs] at hg
      rcases List.mem_map.mp hg with ⟨q, hq, rfl⟩
      refine ⟨rfl, ?_⟩
      rw [extract_groups_eq_groupsPrefix] at hq
      exact groupsPrefix_snd _ _ q hq

/-- Witness for C1: per-document uniqueness on a concrete one-page
document, and the concrete page list of a merged two-page REFERENCIA
group. -/
theorem per_document_dedup_first_occurrence_witness :
    ((process_pdf_bytes 3 5 8
        [{ blocks := [], textIn := fun _ => "C50039 0007 0001",
           wordsIn := fun _ => [], width := 90, height := 90 }]).map OutEntry.sku).Nodup ∧
    ({ ref := "A1", filename := "CARTON BARCODE - A1.pdf", pages := [0, 1] } : GroupOut).pages
      = (List.range (["REFERENCIA: A1 x", "REFERENCIA: A1 y"]).length).filter
          (fun i => extract_reference ((["REFERENCIA: A1 x", "REFERENCIA: A1 y"]).getD i "")
            = ({ ref := "A1", filename := "CARTON BARCODE - A1.pdf",
                 pages := [0, 1] } : GroupOut).ref) :=
  ⟨(per_document_dedup_first_occurrence.1 3 5 8
      [{ blocks := [], textIn := fun _ => "C50039 0007 0001",
         wordsIn := fun _ => [], width := 90, height := 90 }]).1,
   ((per_document_dedup_first_occurrence.2 ["REFERENCIA: A1 x", "REFERENCIA: A1 y"]).2.2
      { ref := "A1", filename := "CARTON BARCODE - A1.pdf", pages := [0, 1] }
      (by decide)).2⟩

/-- Counterexample to C2 as stated: in the REFERENCIA pipeline a page with
no identifier match is not skipped — extraction returns the sentinel
string `"UNKNOWN"` (not an absence value), the page is grouped under
`"UNKNOWN"`, and it produces an output unit. -/
theorem unknown_sentinel_counterexample :
    extract_reference "no codes here" = "UNKNOWN" ∧
    extract_groups ["no codes here"] = [("UNKNOWN", [0])] ∧
    build_group_pdfs (extract_groups ["no codes here"])
      = [{ ref := "UNKNOWN", filename := "CARTON BARCODE - UNKNOWN.pdf",
           pages := [0] }] := by
  exact ⟨by decide, by decide, by decide⟩

/-- C2 (amended): in the SKU pipeline absence is a first-class value
(`extract_sku` returns `none`), a page with no identifier is skipped —
processing continues with the remaining pages, unchanged — and every
output unit comes from a page whose extraction succeeded.  In the
REFERENCIA pipeline extraction never reports absence: a page with no
match is assigned the sentinel `"UNKNOWN"`, joins the `"UNKNOWN"` group,
and that group produces an output unit. -/
theorem absent_identifier_skips_page :
    (∀ (cols : ℕ) (padX padY : ℚ) (p : Page) (rest : List Page) (idx : ℕ)
        (seen : List String),
      skuOfPage cols padX padY p = none →
      processPages cols padX padY (p :: rest) idx seen
        = processPages cols padX padY rest (idx + 1) seen) ∧
    (∀ (cols : ℕ) (padX padY : ℚ) (pages : List Page),
      ∀ o ∈ process_pdf_bytes cols padX padY pages,
        ∃ p, pages[o.pageIndex]? = some p ∧
          skuOfPage cols padX padY p = some o.sku) ∧
    (∀ (texts : List String) (i : ℕ), i < texts.length →
      searchRef ((texts.getD i "").data) = none →
      ∃ q ∈ extract_groups texts, q.1 = "UNKNOWN" ∧ i ∈ q.2 ∧
        { ref := "UNKNOWN", filename := "CARTON BARCODE - UNKNOWN.pdf", pages := q.2 }
          ∈ build_group_pdfs (extract_groups texts)) := by
  refine ⟨?_, ?_, ?_⟩
  · intro cols padX padY p rest idx seen h
    have hs : extract_sku (p.textIn
        (compute_first_label_clip p.blocks p.width p.height cols padX padY)) = none := h
    simp only [processPages, hs]
  · intro cols padX padY pages o ho
    obtain ⟨_, _, j, p, _, hidx, hget, hsku, _⟩ :=
      processPages_entries cols padX padY pages 0 [] o ho
    have hidx0 : o.pageIndex = j := by omega
    exact ⟨p, by rw [hidx0]; exact hget, hsku⟩
  · intro texts i hi hnone
    have href : refAt texts i = "UNKNOWN" := by
      rw [refAt, extract_reference, hnone]
    have hmem : "UNKNOWN" ∈ (extract_groups texts).map Prod.fst := by
      rw [extract_groups_eq_groupsPrefix, groupsPrefix_fst]
      refine (mem_firstDedup _ _ _).mpr ⟨List.not_mem_nil _, ?_⟩
      rw [← href]
      exact List.mem_map_of_mem (refAt texts) (List.mem_range.mpr hi)
    rcases List.mem_map.mp hmem with ⟨q, hq, hqfst⟩
    have hsnd : q.2 = (List.range texts.length).filter
        (fun j => refAt texts j = q.1) := by
      rw [extract_groups_eq_groupsPrefix] at hq
      exact groupsPrefix_snd _ _ q hq
    refine ⟨q, hq, hqfst, ?_, ?_⟩
    · rw [hsnd]
      refine List.mem_filter.mpr ⟨List.mem_range.mpr hi, ?_⟩
      rw [decide_eq_true_eq, href, hqfst]
    · have hmm : GroupOut.mk q.1 ("CARTON BARCODE - " ++ q.1 ++ ".pdf") q.2
          ∈ build_group_pdfs (extract_groups texts) := by
        rw [build_group_pdfs]
        exact List.mem_map_of_mem _ hq
      rw [hqfst] at hmm
      exact hmm

/-- Witness for C2: a page with no SKU is skipped, and a concrete no-match
page lands in the `"UNKNOWN"` group with an output. -/
theorem absent_identifier_skips_page_witness :
    processPages 3 5 8
        [{ blocks := [], textIn := fun _ => "nothing here",
           wordsIn := fun _ => [], width := 90, height := 90 }] 0 []
      = processPages 3 5 8 [] 1 [] ∧
    ∃ q ∈ extract_groups ["no codes here"], q.1 = "UNKNOWN" ∧ 0 ∈ q.2 ∧
      { ref := "UNKNOWN", filename := "CARTON BARCODE - UNKNOWN.pdf", pages := q.2 }
        ∈ build_group_pdfs (extract_groups ["no codes here"]) :=
  ⟨absent_identifier_skips_page.1 3 5 8
      { blocks := [], textIn := fun _ => "nothing here",
        wordsIn := fun _ => [], width := 90, height := 90 } [] 0 [] (by decide),
   absent_identifier_skips_page.2.2 ["no codes here"] 0 (by decide) (by decide)⟩
